import Mathlib

/-!
# Verification of the ERA5 hour-index audit / backfill pipeline

A shallow embedding, in Lean 4, of the temporal-index codec, gap detection,
range compression, report line grammar and backfill orchestration found in
`conversion_scripts/` of the openv-ncar-dashboard repository, together with
proofs of the specification claims about them.

Calendar arithmetic performed in the Python sources by `numpy.datetime64`,
`pandas` and `datetime` (all proleptic Gregorian, at hour resolution here)
is embedded as explicit Gregorian day/hour counting from the epoch
1940-01-01T00:00:00 (`BASE_YEAR = 1940` in every script).
-/

namespace NcarPipeline

/-- Gregorian leap-year test on the calendar used by `numpy.datetime64` /
`datetime` (proleptic Gregorian). -/
def isLeap (y : Nat) : Bool :=
  (y % 4 == 0 && y % 100 != 0) || (y % 400 == 0)

/-- Length of month `m` (1..12) given the leap flag of the year. -/
def daysInMonthL (leap : Bool) (m : Nat) : Nat :=
  if m = 2 then (if leap then 29 else 28)
  else if m = 4 ∨ m = 6 ∨ m = 9 ∨ m = 11 then 30
  else 31

/-- Length of month `m` of year `y`. -/
def daysInMonth (y m : Nat) : Nat := daysInMonthL (isLeap y) m

/-- Days in a year given the leap flag. -/
def daysInYearL (leap : Bool) : Nat := if leap then 366 else 365

/-- Days in year `y`. -/
def daysInYear (y : Nat) : Nat := daysInYearL (isLeap y)

/-- Days of year `y` strictly before month `m` (so `daysBeforeMonthL _ 1 = 0`). -/
def daysBeforeMonthL (leap : Bool) : Nat → Nat
  | 0 => 0
  | 1 => 0
  | (m + 2) => daysBeforeMonthL leap (m + 1) + daysInMonthL leap (m + 1)

/-- Days of year `y` strictly before month `m`. -/
def daysBeforeMonth (y m : Nat) : Nat := daysBeforeMonthL (isLeap y) m

/-- Total days in the `n` consecutive years `y, y+1, ..., y+n-1`. -/
def sumDays (y : Nat) : Nat → Nat
  | 0 => 0
  | n + 1 => daysInYear y + sumDays (y + 1) n

/-- Calendar days from 1940-01-01 to the start of year `y` (for `y ≥ 1940`). -/
def daysFrom1940 (y : Nat) : Nat := sumDays 1940 (y - 1940)

/-- Calendar days from 1940-01-01 to the date `y-m-d`: the model of
`numpy.datetime64` day subtraction against `BASE0 = 1940-01-01`. -/
def toEpochDay (y m d : Nat) : Nat :=
  daysFrom1940 y + daysBeforeMonth y m + (d - 1)

/-- A calendar timestamp at hour resolution, as handled by every script. -/
structure DateTime where
  year : Nat
  month : Nat
  day : Nat
  hour : Nat
deriving DecidableEq, Repr

/-- Validity of a calendar timestamp (what `datetime`/`numpy` accept). -/
def ValidDT (t : DateTime) : Prop :=
  1 ≤ t.month ∧ t.month ≤ 12 ∧ 1 ≤ t.day ∧ t.day ≤ daysInMonth t.year t.month ∧ t.hour < 24

instance (t : DateTime) : Decidable (ValidDT t) := by
  unfold ValidDT; infer_instance

/-- Hours from 1940-01-01T00 to a timestamp: the model of `numpy.datetime64`
subtraction at hour resolution (`(ts - base) / timedelta64(1, "h")`). -/
def epochHours (t : DateTime) : Nat :=
  toEpochDay t.year t.month t.day * 24 + t.hour

/-- Year/day-of-year decoding: starting at year `y` with `d` days remaining,
step a year at a time (the model of adding `d` days to the epoch date).
The first argument is structural fuel; every caller passes `d`, which always
suffices because each step consumes at least 365 days. -/
def yearDoyFuel : Nat → Nat → Nat → Nat × Nat
  | 0, y, d => (y, d)
  | fuel + 1, y, d =>
    if d < daysInYear y then (y, d) else yearDoyFuel fuel (y + 1) (d - daysInYear y)

/-- Year/day-of-year decoding of `d` days past January 1st of year `y`. -/
def yearDoy (y d : Nat) : Nat × Nat := yearDoyFuel d y d

/-- Month/day-of-month decoding from a day-of-year (0-based), by scanning the
at most 12 months; returns a 1-based (month, day) pair. -/
def monthDayGoL (leap : Bool) : Nat → Nat → Nat → Nat × Nat
  | 0, m, doy => (m, doy + 1)
  | fuel + 1, m, doy =>
    if doy < daysInMonthL leap m then (m, doy + 1)
    else monthDayGoL leap fuel (m + 1) (doy - daysInMonthL leap m)

/-- Month/day-of-month from a 0-based day-of-year. -/
def monthDayL (leap : Bool) (doy : Nat) : Nat × Nat := monthDayGoL leap 11 1 doy

/-- Month/day-of-month from a 0-based day-of-year of year `y`. -/
def monthDay (y doy : Nat) : Nat × Nat := monthDayL (isLeap y) doy

/-- Decode a count of days since 1940-01-01 into a calendar date. -/
def dateFromEpochDay (d : Nat) : Nat × Nat × Nat :=
  let yd := yearDoy 1940 d
  let md := monthDay yd.1 yd.2
  (yd.1, md.1, md.2)

/-! ### The hour-index codec (audit_missing_hours.py, daily_era5_2t.py,
run_missing_hours.py, era5_sfc_2t.py) -/

/-- `TIME_START` of era5_sfc_2t.py: `1940 * 365 * 24 + 1`. -/
def TIME_START : Nat := 1940 * 365 * 24 + 1

/-- `TIME_END` of era5_sfc_2t.py: `2031 * 366 * 24`. -/
def TIME_END : Nat := 2031 * 366 * 24

/-- `calculate_abs_hour_index` of daily_era5_2t.py:
`BASE_YEAR*365*24 + days_since*24 + hour + 1` with `days_since` computed by
leap-aware `datetime64[D]` subtraction (embedded as `toEpochDay`). -/
def calculate_abs_hour_index (year month day hour : Nat) : Nat :=
  1940 * 365 * 24 + toEpochDay year month day * 24 + hour + 1

/-- `abs_time_index_hours_leapaware` of run_missing_hours.py /
run_missing_days.py / daily_era5_2t.py: hours since 1940-01-01T00 (embedded
as `epochHours`) plus `BASE_YEAR*365*24 + 1`. -/
def abs_time_index_hours_leapaware (t : DateTime) : Nat :=
  epochHours t + (1940 * 365 * 24 + 1)

/-- `abs_time_index_hours_leapaware` of era5_sfc_2t.py: pandas-normalized
calendar days since 1940-01-01 (`ts.normalize()`, embedded as the date part)
times 24, plus `ts.hour`, plus the fixed `1940*365*24` offset, plus 1. -/
def abs_time_index_sfc (t : DateTime) : Nat :=
  1940 * 365 * 24 + toEpochDay t.year t.month t.day * 24 + t.hour + 1

/-- The calendar timestamp denoted by a 1-based absolute hour index
(`BASE0 + (t - (BASE_YEAR*365*24 + 1)) hours` in audit_missing_hours.py's
`iso_from_hour_index`, before formatting). -/
def iso_from_hour_index_dt (t : Nat) : DateTime :=
  let off := t - TIME_START
  let ymd := dateFromEpochDay (off / 24)
  ⟨ymd.1, ymd.2.1, ymd.2.2, off % 24⟩

/-- The index computed by audit_missing_hours.py's `hour_index_from_iso`
once the string has been parsed to a timestamp:
`BASE_YEAR*365*24 + hours_since + 1`. -/
def hour_index_from_iso_dt (t : DateTime) : Nat :=
  1940 * 365 * 24 + epochHours t + 1

/-- `yyyymm_ok` of era5_sfc_2t.py on an already-numeric YYYYMM value. -/
def yyyymm_ok (v : Nat) : Bool :=
  decide (194001 ≤ v) && decide (v ≤ 202506)

/-! ### Gap detection and range compression (audit_missing_hours.py,
rebuild_missing_from_ranges.py) -/

/-- The missing-hours computation of audit_missing_hours.py `main`:
swap the bounds if reversed, then keep every index of the inclusive range
not present (`[t for t in expected if t not in present_set]`). -/
def findMissing (present : List Nat) (exp_start exp_end : Nat) : List Nat :=
  if exp_end < exp_start then
    (List.range' exp_end (exp_start + 1 - exp_end)).filter (fun t => !(present.contains t))
  else
    (List.range' exp_start (exp_end + 1 - exp_start)).filter (fun t => !(present.contains t))

/-- The loop body of `contiguous_ranges`: `start`/`prev` are the python
loop variables, the argument list is the remaining input. -/
def crAux (start prev : Nat) : List Nat → List (Nat × Nat)
  | [] => [(start, prev)]
  | x :: xs =>
    if x ≠ prev + 1 then (start, prev) :: crAux x x xs else crAux start x xs

/-- `contiguous_ranges` of audit_missing_hours.py (with `step = 1`). -/
def contiguous_ranges : List Nat → List (Nat × Nat)
  | [] => []
  | x :: xs => crAux x x xs

/-- `expand_hours` of rebuild_missing_from_ranges.py: swap each reversed
range, then enumerate it inclusively. -/
def expand_hours (ranges : List (Nat × Nat)) : List Nat :=
  (ranges.map (fun r =>
    if r.2 < r.1 then List.range' r.2 (r.1 + 1 - r.2)
    else List.range' r.1 (r.2 + 1 - r.1))).flatten

/-! ### Decimal rendering and the report line (audit_missing_hours.py) -/

/-- The decimal digit characters. -/
def digitChar : Nat → Char
  | 0 => '0' | 1 => '1' | 2 => '2' | 3 => '3' | 4 => '4'
  | 5 => '5' | 6 => '6' | 7 => '7' | 8 => '8' | _ => '9'

/-- Decimal rendering, peeling one digit per structural fuel step; every
caller passes `n` as fuel, which suffices since `n < 10 ^ (n + 1)`. -/
def natDigsFuel : Nat → Nat → List Char
  | 0, n => [digitChar (n % 10)]
  | fuel + 1, n =>
    if n < 10 then [digitChar n] else natDigsFuel fuel (n / 10) ++ [digitChar (n % 10)]

/-- Decimal rendering of a natural number (Python `str`/`%d`). -/
def natDigs (n : Nat) : List Char := natDigsFuel n n

/-- Left-pad with zeros to width `w` (Python `%02d` / `%04d`). -/
def padTo (w : Nat) (ds : List Char) : List Char :=
  List.replicate (w - ds.length) '0' ++ ds

/-- `strftime("%Y-%m-%d %H:%M:%S")` on a whole-hour timestamp. -/
def isoChars (t : DateTime) : List Char :=
  padTo 4 (natDigs t.year) ++ '-' :: padTo 2 (natDigs t.month) ++
  '-' :: padTo 2 (natDigs t.day) ++ ' ' :: padTo 2 (natDigs t.hour) ++
  [':', '0', '0', ':', '0', '0']

/-- `iso_from_hour_index` of audit_missing_hours.py: decode then format. -/
def iso_from_hour_index (t : Nat) : List Char :=
  isoChars (iso_from_hour_index_dt t)

/-- One line of the audit report
(`f"  a .. b  |  iso_a .. iso_b  (N hours)"` in audit_missing_hours.py). -/
def rangeLine (a b : Nat) : List Char :=
  ' ' :: ' ' :: (natDigs a ++ (' ' :: '.' :: '.' :: ' ' ::
  (natDigs b ++ (' ' :: ' ' :: '|' :: ' ' :: ' ' ::
  (iso_from_hour_index a ++ (' ' :: '.' :: '.' :: ' ' ::
  (iso_from_hour_index b ++ (' ' :: ' ' :: '(' ::
  (natDigs (b - a + 1) ++ (' ' :: 'h' :: 'o' :: 'u' :: 'r' :: 's' :: [')']))))))))))

/-! ### Character-level parsing (the `RANGE_RE` regexes and the
datetime parsers of the repair tools) -/

/-- Python `\s` whitespace (the characters that occur in these files). -/
def isWsChar (c : Char) : Bool :=
  c == ' ' || c == '\t' || c == '\n' || c == '\r'

/-- The character class `[0-9:\-\s]` of rebuild_missing_from_ranges.py's
`RANGE_RE`. -/
def isClsChar (c : Char) : Bool :=
  c.isDigit || c == ':' || c == '-' || isWsChar c

/-- Numeric value of a digit string. -/
def digitsVal (ds : List Char) : Nat :=
  ds.foldl (fun a c => a * 10 + (c.toNat - 48)) 0

/-- Greedy `(\d+)`: a maximal nonempty digit run and its value. -/
def takeNum (s : List Char) : Option (Nat × List Char) :=
  let ds := s.takeWhile Char.isDigit
  if ds.isEmpty then none else some (digitsVal ds, s.dropWhile Char.isDigit)

/-- Greedy `([0-9:\-\s]+)`: a maximal nonempty class run (content unused). -/
def takeCls (s : List Char) : Option (List Char) :=
  if (s.takeWhile isClsChar).isEmpty then none else some (s.dropWhile isClsChar)

/-- Match an exact literal. -/
def expectLit : List Char → List Char → Option (List Char)
  | [], s => some s
  | c :: cs, x :: s => if x = c then expectLit cs s else none
  | _ :: _, [] => none

/-- `\s+`: at least one whitespace character, consumed greedily. -/
def expectWs : List Char → Option (List Char)
  | c :: rest => if isWsChar c then some (rest.dropWhile isWsChar) else none
  | [] => none

/-- Exactly `k` digits, accumulating their value (`\d{k}`). -/
def takeFixedGo : Nat → Nat → List Char → Option (Nat × List Char)
  | 0, acc, s => some (acc, s)
  | k + 1, acc, c :: s =>
    if c.isDigit then takeFixedGo k (acc * 10 + (c.toNat - 48)) s else none
  | _ + 1, _, [] => none

/-- `RANGE_RE.match` of rebuild_missing_from_ranges.py, as the equivalent
deterministic scanner (every quantified class in the pattern is followed by
a literal outside the class, so the greedy scan is the unique match), and
`parse_ranges`'s extraction of the two leading indices. -/
def matchRebuild (s : List Char) : Option (Nat × Nat) := do
  let (a, s) ← takeNum (s.dropWhile isWsChar)
  let s ← expectLit ['.', '.'] (s.dropWhile isWsChar)
  let (b, s) ← takeNum (s.dropWhile isWsChar)
  let s ← expectLit ['|'] (s.dropWhile isWsChar)
  let s ← takeCls s
  let s ← expectLit ['.', '.'] s
  let s ← takeCls s
  let s ← expectLit ['('] s
  let (_, s) ← takeNum s
  let s ← expectLit ['h', 'o', 'u', 'r', 's'] (s.dropWhile isWsChar)
  let s ← expectLit [')'] s
  if (s.dropWhile isWsChar).isEmpty then some (a, b) else none

/-- `parse_ranges` of rebuild_missing_from_ranges.py over a list of report
lines: keep the `(start_idx, end_idx)` pair of every matching line. -/
def parse_ranges_rebuild (lines : List (List Char)) : List (Nat × Nat) :=
  lines.filterMap matchRebuild

/-- A timestamp with the minute and second fields that
`datetime.strptime(.., "%Y-%m-%d %H:%M:%S")` also yields. -/
def DT6 : Type := DateTime × Nat × Nat

instance : DecidableEq DT6 := by
  unfold DT6; infer_instance

/-- Chronological (lexicographic) strict order on parsed timestamps, the
order `datetime` comparison uses. -/
def dtLt (p q : DT6) : Bool :=
  decide (p.1.year < q.1.year ∨ (p.1.year = q.1.year ∧
    (p.1.month < q.1.month ∨ (p.1.month = q.1.month ∧
      (p.1.day < q.1.day ∨ (p.1.day = q.1.day ∧
        (p.1.hour < q.1.hour ∨ (p.1.hour = q.1.hour ∧
          (p.2.1 < q.2.1 ∨ (p.2.1 = q.2.1 ∧ p.2.2 < q.2.2))))))))))

/-- The `\d{4}-\d{2}-\d{2}\s+\d{2}:\d{2}:\d{2}` group of
run_missing_days_fast.py's `RANGE_RE` composed with
`datetime.strptime(.., "%Y-%m-%d %H:%M:%S")` on the captured text:
fixed-width fields with `datetime`'s validity checks. -/
def parseFastDT (s : List Char) : Option (DT6 × List Char) := do
  let (y, s) ← takeFixedGo 4 0 s
  let s ← expectLit ['-'] s
  let (mo, s) ← takeFixedGo 2 0 s
  let s ← expectLit ['-'] s
  let (d, s) ← takeFixedGo 2 0 s
  let s ← expectWs s
  let (h, s) ← takeFixedGo 2 0 s
  let s ← expectLit [':'] s
  let (mi, s) ← takeFixedGo 2 0 s
  let s ← expectLit [':'] s
  let (se, s) ← takeFixedGo 2 0 s
  if ValidDT ⟨y, mo, d, h⟩ ∧ 1 ≤ y ∧ mi < 60 ∧ se < 60 then
    some (((⟨y, mo, d, h⟩ : DateTime), mi, se), s)
  else none

/-- `RANGE_RE.match` plus the body of `parse_ranges` of
run_missing_days_fast.py: parse both timestamps and swap them if reversed. -/
def matchFast (s : List Char) : Option (DT6 × DT6) := do
  let (_, s) ← takeNum (s.dropWhile isWsChar)
  let s ← expectLit ['.', '.'] (s.dropWhile isWsChar)
  let (_, s) ← takeNum (s.dropWhile isWsChar)
  let s ← expectLit ['|'] (s.dropWhile isWsChar)
  let (sdt, s) ← parseFastDT (s.dropWhile isWsChar)
  let s ← expectLit ['.', '.'] (s.dropWhile isWsChar)
  let (edt, s) ← parseFastDT (s.dropWhile isWsChar)
  let s ← expectLit ['('] (s.dropWhile isWsChar)
  let (_, s) ← takeNum s
  let s ← expectLit ['h', 'o', 'u', 'r', 's'] (s.dropWhile isWsChar)
  let s ← expectLit [')'] s
  if (s.dropWhile isWsChar).isEmpty then
    if dtLt edt sdt then some (edt, sdt) else some (sdt, edt)
  else none

/-- `parse_ranges` of run_missing_days_fast.py over a list of lines. -/
def parse_ranges_fast (lines : List (List Char)) : List (DT6 × DT6) :=
  lines.filterMap matchFast

/-- `numpy.datetime64` on the second-resolution ISO form
`YYYY-MM-DDTHH:MM:SS` (the only form audit's `hour_index_from_iso` feeds it
after its date-only normalization). -/
def parseIsoNp (s : List Char) : Option DT6 := do
  let (y, s) ← takeFixedGo 4 0 s
  let s ← expectLit ['-'] s
  let (mo, s) ← takeFixedGo 2 0 s
  let s ← expectLit ['-'] s
  let (d, s) ← takeFixedGo 2 0 s
  let s ← expectLit ['T'] s
  let (h, s) ← takeFixedGo 2 0 s
  let s ← expectLit [':'] s
  let (mi, s) ← takeFixedGo 2 0 s
  let s ← expectLit [':'] s
  let (se, s) ← takeFixedGo 2 0 s
  if s.isEmpty ∧ ValidDT ⟨y, mo, d, h⟩ ∧ mi < 60 ∧ se < 60 then
    some ((⟨y, mo, d, h⟩ : DateTime), mi, se)
  else none

/-- Python `str.strip()` over our whitespace. -/
def stripChars (s : List Char) : List Char :=
  ((s.dropWhile isWsChar).reverse.dropWhile isWsChar).reverse

/-- `hour_index_from_iso` of audit_missing_hours.py: strip; append
`" 00:00:00"` to a date-only string; replace spaces by `T`; parse with
`numpy`; then apply the index formula (minutes/seconds are floored away by
the integer division by one hour). -/
def hour_index_from_iso (s : List Char) : Option Nat :=
  let s1 := if (stripChars s).length ≤ 10
    then stripChars s ++ [' ', '0', '0', ':', '0', '0', ':', '0', '0']
    else s
  let s2 := s1.map (fun c => if c = ' ' then 'T' else c)
  (parseIsoNp s2).map (fun p => hour_index_from_iso_dt p.1)

/-- A nonempty digit run of at most `maxLen` digits: the `\d{1,maxLen}`
pattern strptime compiles for a numeric directive (followed in the format
by a non-digit, so the greedy scan with a length cap is the unique match). -/
def takeVarDigits (maxLen : Nat) (s : List Char) : Option (Nat × List Char) :=
  let ds := s.takeWhile Char.isDigit
  if ds.isEmpty ∨ maxLen < ds.length then none
  else some (digitsVal ds, s.dropWhile Char.isDigit)

/-- `datetime.strptime(.., "%Y-%m-%d %H:%M:%S")` as used on CSV rows by
run_missing_hours.py / run_missing_days.py: up-to-width numeric fields,
literal separators (a format-string space matches one or more whitespace
characters), full consumption, and `datetime`'s validity checks. -/
def parseIsoStrptime (s : List Char) : Option DT6 := do
  let (y, s) ← takeVarDigits 4 s
  let s ← expectLit ['-'] s
  let (mo, s) ← takeVarDigits 2 s
  let s ← expectLit ['-'] s
  let (d, s) ← takeVarDigits 2 s
  let s ← expectWs s
  let (h, s) ← takeVarDigits 2 s
  let s ← expectLit [':'] s
  let (mi, s) ← takeVarDigits 2 s
  let s ← expectLit [':'] s
  let (se, s) ← takeVarDigits 2 s
  if s.isEmpty ∧ ValidDT ⟨y, mo, d, h⟩ ∧ 1 ≤ y ∧ mi < 60 ∧ se < 60 then
    some ((⟨y, mo, d, h⟩ : DateTime), mi, se)
  else none

/-! ### The run_for_days executor (rebuild_missing_from_ranges.py) -/

/-- Submission / completion events of a `run_for_days` run, over abstract
work-item (day) identifiers. -/
inductive RunEvent
  | submitted : Nat → RunEvent
  | completed : Nat → Nat → RunEvent
deriving DecidableEq, Repr

/-- The return code `one(day)` reports: always 0 in dry-run mode, else the
command's return code (an abstract outcome function). -/
def effRc (dryRun : Bool) (rc : Nat → Nat) (d : Nat) : Nat :=
  if dryRun then 0 else rc d

/-- The sequential (`jobs <= 1`) path of `run_for_days` as its trace of
submissions and completions: each day is submitted then completed, and the
loop breaks after a completion with `not dry_run and stop_on_error and
rc != 0`. -/
def seqTrace (dryRun stopOnError : Bool) (rc : Nat → Nat) : List Nat → List RunEvent
  | [] => []
  | d :: ds =>
    RunEvent.submitted d :: RunEvent.completed d (effRc dryRun rc d) ::
      (if !dryRun && stopOnError && !(effRc dryRun rc d == 0) then []
       else seqTrace dryRun stopOnError rc ds)

/-- The `results` list accumulated by the sequential path of
`run_for_days` (day paired with its return code). -/
def seqResults (dryRun stopOnError : Bool) (rc : Nat → Nat) : List Nat → List (Nat × Nat)
  | [] => []
  | d :: ds =>
    (d, effRc dryRun rc d) ::
      (if !dryRun && stopOnError && !(effRc dryRun rc d == 0) then []
       else seqResults dryRun stopOnError rc ds)

/-- The `as_completed` collection loop of the thread-pool path: completions
arrive in the order `order`; the loop breaks after a failing completion
under stop-on-error (submissions all happened beforehand). -/
def collectTrace (dryRun stopOnError : Bool) (rc : Nat → Nat) : List Nat → List RunEvent
  | [] => []
  | d :: ds =>
    RunEvent.completed d (effRc dryRun rc d) ::
      (if !dryRun && stopOnError && !(effRc dryRun rc d == 0) then []
       else collectTrace dryRun stopOnError rc ds)

/-- The thread-pool (`jobs > 1`) path of `run_for_days`: every future is
submitted up front (`futs = {ex.submit(one, d): d for d in days}`), then
completions are observed in some order. -/
def poolTrace (dryRun stopOnError : Bool) (rc : Nat → Nat)
    (days order : List Nat) : List RunEvent :=
  days.map RunEvent.submitted ++ collectTrace dryRun stopOnError rc order

/-! ### The run_missing_hours.py main loop -/

/-- What the filesystem provides to `find_month_file`: whether the YYYYMM
month directory exists, whether it holds a file matching `FILE_REGEX`, and
the hours a successful `write_missing_for_date` writes for a date. -/
structure SourceEnv where
  monthDirExists : Nat → Nat → Bool
  monthFileExists : Nat → Nat → Bool
  hoursWritten : Nat → Nat → Nat → Nat

/-- The two `FileNotFoundError` reasons of `find_month_file`. -/
inductive RepairError
  | monthDirNotFound
  | monthFileNotFound
deriving DecidableEq, Repr

/-- `find_month_file` of run_missing_hours.py: raise if the month directory
is absent or no file matches the ERA5 2T naming pattern. -/
def find_month_file (env : SourceEnv) (y m : Nat) : Except RepairError Unit :=
  if !(env.monthDirExists y m) then Except.error RepairError.monthDirNotFound
  else if !(env.monthFileExists y m) then Except.error RepairError.monthFileNotFound
  else Except.ok ()

/-- `write_missing_for_date` of run_missing_hours.py, to the extent the
failure-isolation claim depends on it: locate the month file (raising
`FileNotFoundError` when absent), then write and report a count. -/
def write_missing_for_date (env : SourceEnv) (y m d : Nat) : Except RepairError Nat :=
  match find_month_file env y m with
  | Except.error e => Except.error e
  | Except.ok _ => Except.ok (env.hoursWritten y m d)

/-- The date loop of run_missing_hours.py `main` (`for d in dates: ...
write_missing_for_date(...)`, with no exception handling): returns the
items processed with their written counts, and the first uncaught error,
which terminates the loop. -/
def mainLoopHours (env : SourceEnv) :
    List (Nat × Nat × Nat) → List ((Nat × Nat × Nat) × Nat) × Option RepairError
  | [] => ([], none)
  | t :: ts =>
    match write_missing_for_date env t.1 t.2.1 t.2.2 with
    | Except.error e => ([], some e)
    | Except.ok w =>
      ((t, w) :: (mainLoopHours env ts).1, (mainLoopHours env ts).2)

/-- A filesystem in which the 196912 month directory is absent while every
other month directory exists and holds a matching ERA5 file (each
successful date write reporting 24 hours). -/
def envMissingDec1969 : SourceEnv where
  monthDirExists := fun y m => !(decide (y = 1969) && decide (m = 12))
  monthFileExists := fun _ _ => true
  hoursWritten := fun _ _ _ => 24

/-! ### CSV ingestion (run_missing_hours.py / run_missing_days.py) -/

/-- One data row of the missing-hours ledger as `csv.DictReader` hands it
to `parse_missing_csv`: the two columns of the `hour_index,iso_utc`
header. -/
structure CsvRow where
  hour_index : List Char
  iso_utc : List Char

/-- A calendar date as ordered by Python `datetime.date` comparison. -/
def dateLtB (a b : Nat × Nat × Nat) : Bool :=
  decide (a.1 < b.1 ∨ (a.1 = b.1 ∧
    (a.2.1 < b.2.1 ∨ (a.2.1 = b.2.1 ∧ a.2.2 < b.2.2))))

/-- The date-window skip test of `parse_missing_csv`
(`(d0 and d < d0) or (d1 and d > d1)`). -/
def csvSkip (d0 d1 : Option (Nat × Nat × Nat)) (d : Nat × Nat × Nat) : Bool :=
  (match d0 with | some a => dateLtB d a | none => false) ||
  (match d1 with | some b => dateLtB b d | none => false)

/-- `per_day[d].add(dt.hour)` on the insertion-ordered grouping. -/
def addHour (acc : List ((Nat × Nat × Nat) × List Nat)) (d : Nat × Nat × Nat)
    (h : Nat) : List ((Nat × Nat × Nat) × List Nat) :=
  match acc with
  | [] => [(d, [h])]
  | (d', hs) :: rest =>
    if d' = d then (d', if h ∈ hs then hs else hs ++ [h]) :: rest
    else (d', hs) :: addHour rest d h

/-- The row loop of `parse_missing_csv` (run_missing_days.py variant, which
also counts the rows in the window): skip rows whose stripped `iso_utc` is
empty, abort the run on a malformed timestamp (`strptime` raises), skip
rows outside the optional `[d0, d1]` date window, and group the hour of
every remaining row under its calendar date. -/
def parseCsvGo (d0 d1 : Option (Nat × Nat × Nat))
    (acc : List ((Nat × Nat × Nat) × List Nat)) (cnt : Nat) :
    List CsvRow → Except Unit (List ((Nat × Nat × Nat) × List Nat) × Nat)
  | [] => Except.ok (acc, cnt)
  | row :: rest =>
    let iso := stripChars row.iso_utc
    if iso.isEmpty then parseCsvGo d0 d1 acc cnt rest
    else
      match parseIsoStrptime iso with
      | none => Except.error ()
      | some p =>
        if csvSkip d0 d1 (p.1.year, p.1.month, p.1.day) then
          parseCsvGo d0 d1 acc cnt rest
        else parseCsvGo d0 d1
          (addHour acc (p.1.year, p.1.month, p.1.day) p.1.hour) (cnt + 1) rest

/-- `parse_missing_csv` over the data rows of the ledger. -/
def parse_missing_csv (rows : List CsvRow) (d0 d1 : Option (Nat × Nat × Nat)) :
    Except Unit (List ((Nat × Nat × Nat) × List Nat) × Nat) :=
  parseCsvGo d0 d1 [] 0 rows

/-! ### The month-grouped fast path (run_missing_days_fast.py) -/

/-- The epoch-day number of a timestamp's calendar date (`s.date()`). -/
def epochDayDT (t : DateTime) : Nat := toEpochDay t.year t.month t.day

/-- `days_from_ranges`: every calendar date from `s.date()` to `e.date()`
inclusive of every range, collected as a sorted set (dates are represented
by their epoch-day numbers, whose order is the `datetime.date` order). -/
def days_from_ranges (rs : List (DateTime × DateTime)) : List Nat :=
  ((rs.map (fun r => List.range' (epochDayDT r.1) (epochDayDT r.2 + 1 - epochDayDT r.1))).flatten).toFinset.sort (· ≤ ·)

/-- The timestamp-selection mask of `write_month`: a source timestamp is
rewritten exactly when its calendar date (time truncated away by
`astype("datetime64[D]")`) is one of the work item's days. -/
def writeMonthSelect (times : List DateTime) (days : List Nat) : List DateTime :=
  times.filter (fun t => days.contains (epochDayDT t))

/-! ### Within-year facts, by finite decision -/

set_option maxRecDepth 4096

/-- Scanning the 12 months finds a valid (month, day) whose month prefix sum
reconstitutes the day-of-year. -/
theorem monthDayL_valid (leap : Bool) :
    ∀ doy < 366, doy < daysInYearL leap →
      1 ≤ (monthDayL leap doy).1 ∧ (monthDayL leap doy).1 ≤ 12 ∧
      1 ≤ (monthDayL leap doy).2 ∧
      (monthDayL leap doy).2 ≤ daysInMonthL leap (monthDayL leap doy).1 ∧
      daysBeforeMonthL leap (monthDayL leap doy).1 + ((monthDayL leap doy).2 - 1) = doy := by
  cases leap <;> decide

/-- Month scanning is a left inverse of the month prefix sums on valid
(month, day) pairs. -/
theorem monthDayL_encode (leap : Bool) :
    ∀ m < 13, ∀ d < 32, 1 ≤ m ∧ 1 ≤ d ∧ d ≤ daysInMonthL leap m →
      monthDayL leap (daysBeforeMonthL leap m + (d - 1)) = (m, d) := by
  cases leap <;> decide

/-- The day-of-year of a valid (month, day) pair is below the year length. -/
theorem daysBeforeMonthL_lt (leap : Bool) :
    ∀ m < 13, ∀ d < 32, 1 ≤ m ∧ 1 ≤ d ∧ d ≤ daysInMonthL leap m →
      daysBeforeMonthL leap m + (d - 1) < daysInYearL leap := by
  cases leap <;> decide

/-! ### Year-level facts, by induction -/

theorem daysInYear_pos (y : Nat) : 0 < daysInYear y := by
  unfold daysInYear daysInYearL; split <;> omega

theorem daysInYear_le (y : Nat) : daysInYear y ≤ 366 := by
  unfold daysInYear daysInYearL; split <;> omega

theorem sumDays_add (y m n : Nat) :
    sumDays y (m + n) = sumDays y m + sumDays (y + m) n := by
  induction m generalizing y with
  | zero => simp [sumDays]
  | succ k ih =>
    have h2 := ih (y + 1)
    have h3 : k + 1 + n = (k + n) + 1 := by omega
    rw [h3]
    simp only [sumDays]
    rw [h2]
    have h4 : y + 1 + k = y + (k + 1) := by omega
    rw [h4]
    omega

theorem sumDays_ge (y n : Nat) : 365 * n ≤ sumDays y n := by
  induction n generalizing y with
  | zero => simp [sumDays]
  | succ k ih =>
    have h1 := ih (y + 1)
    have h2 : 365 ≤ daysInYear y := by
      unfold daysInYear daysInYearL; split <;> omega
    simp only [sumDays]
    omega

theorem sumDays_mono (y : Nat) {m n : Nat} (h : m ≤ n) :
    sumDays y m ≤ sumDays y n := by
  obtain ⟨k, rfl⟩ := Nat.le.dest h
  rw [sumDays_add]
  omega

/-- Decoding the encoded day count starting at any year with enough fuel
returns the intended year and day-of-year. -/
theorem yearDoyFuel_encode : ∀ (n fuel y doy : Nat), n ≤ fuel →
    doy < daysInYear (y + n) →
    yearDoyFuel fuel y (sumDays y n + doy) = (y + n, doy) := by
  intro n
  induction n with
  | zero =>
    intro fuel y doy _ h
    simp only [Nat.add_zero] at h
    have hz : sumDays y 0 = 0 := rfl
    rw [hz, Nat.zero_add]
    cases fuel with
    | zero => rfl
    | succ f =>
      simp only [yearDoyFuel, if_pos h]
      rfl
  | succ k ih =>
    intro fuel y doy hfuel h
    cases fuel with
    | zero => omega
    | succ f =>
      have hge : daysInYear y ≤ sumDays y (k + 1) + doy := by
        simp only [sumDays]; omega
      simp only [yearDoyFuel]
      rw [if_neg (by omega)]
      have harith : sumDays y (k + 1) + doy - daysInYear y = sumDays (y + 1) k + doy := by
        simp only [sumDays]; omega
      have hshift : y + 1 + k = y + (k + 1) := by omega
      have hdoy : doy < daysInYear (y + 1 + k) := by rw [hshift]; exact h
      rw [harith, ih f (y + 1) doy (by omega) hdoy, hshift]

/-- Decoding the encoded day count starting at any year returns the intended
year and day-of-year. -/
theorem yearDoy_encode (n y doy : Nat) (h : doy < daysInYear (y + n)) :
    yearDoy y (sumDays y n + doy) = (y + n, doy) := by
  have hge := sumDays_ge y n
  exact yearDoyFuel_encode n (sumDays y n + doy) y doy (by omega) h

/-- With enough fuel, any decoded day count splits as full years plus a
valid day-of-year. -/
theorem yearDoyFuel_decode : ∀ (fuel y d y' doy : Nat), d ≤ 365 * fuel + 364 →
    yearDoyFuel fuel y d = (y', doy) →
    y ≤ y' ∧ doy < daysInYear y' ∧ sumDays y (y' - y) + doy = d := by
  intro fuel
  induction fuel with
  | zero =>
    intro y d y' doy hle heq
    simp only [yearDoyFuel, Prod.mk.injEq] at heq
    obtain ⟨rfl, rfl⟩ := heq
    have h365 : 365 ≤ daysInYear y := by
      unfold daysInYear daysInYearL; split <;> omega
    refine ⟨le_refl _, by omega, ?_⟩
    rw [Nat.sub_self]
    have hz : sumDays y 0 = 0 := rfl
    omega
  | succ f ih =>
    intro y d y' doy hle heq
    simp only [yearDoyFuel] at heq
    by_cases h : d < daysInYear y
    · rw [if_pos h] at heq
      rw [Prod.mk.injEq] at heq
      obtain ⟨rfl, rfl⟩ := heq
      refine ⟨le_refl _, h, ?_⟩
      rw [Nat.sub_self]
      have hz : sumDays y 0 = 0 := rfl
      omega
    · rw [if_neg h] at heq
      have hpos := daysInYear_pos y
      have h365 : 365 ≤ daysInYear y := by
        unfold daysInYear daysInYearL; split <;> omega
      obtain ⟨h1, h2, h3⟩ := ih (y + 1) _ _ _ (by omega) heq
      refine ⟨by omega, h2, ?_⟩
      have hsplit : y' - y = 1 + (y' - (y + 1)) := by omega
      rw [hsplit, sumDays_add]
      have h4 : sumDays y 1 = daysInYear y := by
        have hz : sumDays (y + 1) 0 = 0 := rfl
        simp only [sumDays, hz]
        omega
      rw [h4]
      omega

/-- Any decoded day count splits as full years plus a valid day-of-year. -/
theorem yearDoy_decode (d y y' doy : Nat) (heq : yearDoy y d = (y', doy)) :
    y ≤ y' ∧ doy < daysInYear y' ∧ sumDays y (y' - y) + doy = d :=
  yearDoyFuel_decode d y d y' doy (by omega) heq

/-! ### Codec round trips at timestamp level -/

theorem daysInMonthL_le (leap : Bool) (m : Nat) : daysInMonthL leap m ≤ 31 := by
  unfold daysInMonthL
  split
  · split <;> omega
  · split <;> omega

theorem daysInYear_le_366 (y : Nat) : daysInYear y ≤ 366 := daysInYear_le y

/-- Encoding a valid calendar date to its epoch-day count and decoding it
returns the same date. -/
theorem dateFromEpochDay_toEpochDay (y m d : Nat)
    (h1 : 1 ≤ m) (h2 : m ≤ 12) (h3 : 1 ≤ d) (h4 : d ≤ daysInMonth y m)
    (hy : 1940 ≤ y) :
    dateFromEpochDay (toEpochDay y m d) = (y, m, d) := by
  have hdm := daysInMonthL_le (isLeap y) m
  have hd32 : d < 32 := by
    unfold daysInMonth at h4
    omega
  have hdoy : daysBeforeMonth y m + (d - 1) < daysInYear y := by
    have := daysBeforeMonthL_lt (isLeap y) m (by omega) d hd32 ⟨h1, h3, h4⟩
    unfold daysBeforeMonth daysInYear
    exact this
  have hy' : 1940 + (y - 1940) = y := by omega
  have hassoc : toEpochDay y m d
      = sumDays 1940 (y - 1940) + (daysBeforeMonth y m + (d - 1)) := by
    unfold toEpochDay daysFrom1940
    omega
  have henc := yearDoy_encode (y - 1940) 1940 (daysBeforeMonth y m + (d - 1))
    (by rw [hy']; exact hdoy)
  rw [hy'] at henc
  have hmd : monthDay y (daysBeforeMonth y m + (d - 1)) = (m, d) := by
    unfold monthDay daysBeforeMonth
    exact monthDayL_encode (isLeap y) m (by omega) d hd32 ⟨h1, h3, h4⟩
  unfold dateFromEpochDay
  rw [hassoc, henc]
  simp [hmd]

/-- Decoding any epoch-day count yields a valid date (with year at least
1940) that encodes back to the same count. -/
theorem toEpochDay_dateFromEpochDay (dcount : Nat) :
    1940 ≤ (dateFromEpochDay dcount).1 ∧
    1 ≤ (dateFromEpochDay dcount).2.1 ∧ (dateFromEpochDay dcount).2.1 ≤ 12 ∧
    1 ≤ (dateFromEpochDay dcount).2.2 ∧
    (dateFromEpochDay dcount).2.2 ≤
      daysInMonth (dateFromEpochDay dcount).1 (dateFromEpochDay dcount).2.1 ∧
    toEpochDay (dateFromEpochDay dcount).1 (dateFromEpochDay dcount).2.1
      (dateFromEpochDay dcount).2.2 = dcount := by
  rcases hyd : yearDoy 1940 dcount with ⟨y', doy⟩
  obtain ⟨hge, hlt, hsum⟩ := yearDoy_decode dcount 1940 y' doy hyd
  have hlt366 : doy < 366 := by
    have := daysInYear_le y'
    omega
  have hltL : doy < daysInYearL (isLeap y') := hlt
  obtain ⟨m1, m2, m3, m4, m5⟩ := monthDayL_valid (isLeap y') doy hlt366 hltL
  unfold dateFromEpochDay
  rw [hyd]
  simp only
  unfold monthDay
  refine ⟨hge, m1, m2, m3, m4, ?_⟩
  unfold toEpochDay daysFrom1940 daysBeforeMonth
  omega

/-- Decoding the index of a valid in-window timestamp recovers it. -/
theorem codec_encode_decode (t : DateTime) (hv : ValidDT t) (hy : 1940 ≤ t.year) :
    iso_from_hour_index_dt (calculate_abs_hour_index t.year t.month t.day t.hour) = t := by
  obtain ⟨h1, h2, h3, h4, h5⟩ := hv
  have hoff : calculate_abs_hour_index t.year t.month t.day t.hour - TIME_START
      = toEpochDay t.year t.month t.day * 24 + t.hour := by
    unfold calculate_abs_hour_index TIME_START
    omega
  have hdiv : (toEpochDay t.year t.month t.day * 24 + t.hour) / 24
      = toEpochDay t.year t.month t.day := by omega
  have hmod : (toEpochDay t.year t.month t.day * 24 + t.hour) % 24 = t.hour := by
    omega
  unfold iso_from_hour_index_dt
  simp only [hoff, hdiv, hmod,
    dateFromEpochDay_toEpochDay t.year t.month t.day h1 h2 h3 h4 hy]

/-- Unfolding equation for the decoder, stated without `let`. -/
theorem iso_from_hour_index_dt_eq (i : Nat) :
    iso_from_hour_index_dt i =
      ⟨(dateFromEpochDay ((i - TIME_START) / 24)).1,
       (dateFromEpochDay ((i - TIME_START) / 24)).2.1,
       (dateFromEpochDay ((i - TIME_START) / 24)).2.2,
       (i - TIME_START) % 24⟩ := rfl

/-- Re-encoding the decoded timestamp of any in-window index returns it. -/
theorem codec_decode_encode (i : Nat) (hi : TIME_START ≤ i) :
    hour_index_from_iso_dt (iso_from_hour_index_dt i) = i := by
  rcases hymd : dateFromEpochDay ((i - TIME_START) / 24) with ⟨y, m, d⟩
  have henc : toEpochDay y m d = (i - TIME_START) / 24 := by
    obtain ⟨-, -, -, -, -, henc⟩ := toEpochDay_dateFromEpochDay ((i - TIME_START) / 24)
    rw [hymd] at henc
    exact henc
  rw [iso_from_hour_index_dt_eq i, hymd]
  show 1940 * 365 * 24 + (toEpochDay y m d * 24 + (i - TIME_START) % 24) + 1 = i
  have hts : TIME_START = 1940 * 365 * 24 + 1 := rfl
  omega

/-- The decoded date components with any hour below 24 form a valid
timestamp with year at least 1940 (stated over free variables so that
instantiating it is a syntactic match). -/
theorem validDT_mk (dc hr : Nat) (hmod : hr < 24) :
    ValidDT ⟨(dateFromEpochDay dc).1, (dateFromEpochDay dc).2.1,
             (dateFromEpochDay dc).2.2, hr⟩ ∧
    1940 ≤ (DateTime.mk (dateFromEpochDay dc).1 (dateFromEpochDay dc).2.1
             (dateFromEpochDay dc).2.2 hr).year := by
  obtain ⟨g0, g1, g2, g3, g4, -⟩ := toEpochDay_dateFromEpochDay dc
  exact ⟨⟨g1, g2, g3, g4, hmod⟩, g0⟩

theorem iso_from_hour_index_dt_valid (i : Nat) :
    ValidDT (iso_from_hour_index_dt i) ∧ 1940 ≤ (iso_from_hour_index_dt i).year := by
  rw [iso_from_hour_index_dt_eq i]
  exact validDT_mk _ _ (Nat.mod_lt _ (by omega))

/-- Day counts up to 35245 decode to years at most 2036 (stated over free
variables, in the same form the decoder equation produces). -/
theorem dateFromEpochDay_year_le (dc hr : Nat) (hub : dc ≤ 35245) :
    (DateTime.mk (dateFromEpochDay dc).1 (dateFromEpochDay dc).2.1
      (dateFromEpochDay dc).2.2 hr).year ≤ 2036 := by
  show (dateFromEpochDay dc).1 ≤ 2036
  rcases hyd : yearDoy 1940 dc with ⟨y', doy⟩
  obtain ⟨hge, -, hsum⟩ := yearDoy_decode dc 1940 y' doy hyd
  have hyr : (dateFromEpochDay dc).1 = y' := by
    unfold dateFromEpochDay
    rw [hyd]
  rw [hyr]
  by_contra hgt
  have h97 : 97 ≤ y' - 1940 := by omega
  have hmono := sumDays_mono 1940 h97
  have hge97 := sumDays_ge 1940 97
  omega

/-- Indices up to `TIME_END` decode to years at most 2036 (in particular
the rendered year always has four digits). -/
theorem iso_from_hour_index_dt_year_le (i : Nat) (hi : i ≤ TIME_END) :
    (iso_from_hour_index_dt i).year ≤ 2036 := by
  have hub : (i - TIME_START) / 24 ≤ 35245 := by
    have hts : TIME_START = 1940 * 365 * 24 + 1 := rfl
    have hte : TIME_END = 2031 * 366 * 24 := rfl
    omega
  rw [iso_from_hour_index_dt_eq i]
  exact dateFromEpochDay_year_le _ _ hub

/-- C2: the two-part day-based formula of `calculate_abs_hour_index` and
the hours-since-epoch formulas of the two `abs_time_index_hours_leapaware`
variants produce the same hour index on every valid calendar timestamp. -/
theorem index_formulas_agree (t : DateTime) (_hv : ValidDT t) (_hy : 1940 ≤ t.year) :
    calculate_abs_hour_index t.year t.month t.day t.hour = abs_time_index_hours_leapaware t ∧
    calculate_abs_hour_index t.year t.month t.day t.hour = abs_time_index_sfc t := by
  unfold calculate_abs_hour_index abs_time_index_hours_leapaware abs_time_index_sfc epochHours
  omega

theorem index_formulas_agree_witness :
    calculate_abs_hour_index 2024 2 29 23
        = abs_time_index_hours_leapaware ⟨2024, 2, 29, 23⟩ ∧
    calculate_abs_hour_index 2024 2 29 23 = abs_time_index_sfc ⟨2024, 2, 29, 23⟩ :=
  index_formulas_agree ⟨2024, 2, 29, 23⟩ (by decide) (by decide)

/-- C8: every timestamp of a month accepted by `yyyymm_ok` has its computed
hour index inside `[TIME_START, TIME_END]`, so the out-of-window
`RuntimeError` branch of `write_file_to_idx` cannot be taken. -/
theorem time_window_guard_unreachable (t : DateTime) (hv : ValidDT t)
    (hok : yyyymm_ok (t.year * 100 + t.month) = true) :
    TIME_START ≤ abs_time_index_sfc t ∧ abs_time_index_sfc t ≤ TIME_END := by
  obtain ⟨h1, h2, h3, h4, h5⟩ := hv
  have hbounds : 194001 ≤ t.year * 100 + t.month ∧ t.year * 100 + t.month ≤ 202506 := by
    unfold yyyymm_ok at hok
    constructor <;> [skip; skip] <;>
      simp only [Bool.and_eq_true, decide_eq_true_eq] at hok <;> omega
  have hylo : 1940 ≤ t.year := by omega
  have hyhi : t.year ≤ 2025 := by omega
  have hd32 : t.day < 32 := by
    have := daysInMonthL_le (isLeap t.year) t.month
    unfold daysInMonth at h4
    omega
  have hdoy : daysBeforeMonth t.year t.month + (t.day - 1) < daysInYear t.year := by
    have := daysBeforeMonthL_lt (isLeap t.year) t.month (by omega) t.day hd32 ⟨h1, h3, h4⟩
    unfold daysBeforeMonth daysInYear
    exact this
  have hstep : sumDays 1940 (t.year - 1940) + daysInYear t.year
      = sumDays 1940 ((t.year - 1940) + 1) := by
    rw [sumDays_add 1940 (t.year - 1940) 1]
    have h1940 : 1940 + (t.year - 1940) = t.year := by omega
    rw [h1940]
    have hone : ∀ z : Nat, sumDays z 1 = daysInYear z := by
      intro z
      have hz : sumDays (z + 1) 0 = 0 := rfl
      simp only [sumDays, hz]
      omega
    rw [hone]
  have hmono : sumDays 1940 ((t.year - 1940) + 1) ≤ sumDays 1940 86 :=
    sumDays_mono 1940 (by omega)
  have h86 : sumDays 1940 86 = 31412 := by decide
  have hupper : toEpochDay t.year t.month t.day ≤ 31411 := by
    unfold toEpochDay daysFrom1940
    omega
  unfold abs_time_index_sfc TIME_START TIME_END
  omega

theorem time_window_guard_unreachable_witness :
    TIME_START ≤ abs_time_index_sfc ⟨2025, 6, 30, 23⟩ ∧
    abs_time_index_sfc ⟨2025, 6, 30, 23⟩ ≤ TIME_END :=
  time_window_guard_unreachable ⟨2025, 6, 30, 23⟩ (by decide) (by decide)

/-! ### Gap detection (C3) -/

/-- C3: the missing list is exactly the integers of the closed interval not
in the present set, in ascending order; reversed bounds are swapped rather
than an error; an empty present set yields the whole interval; and the
worked example of the specification holds. -/
theorem gap_detection_spec :
    (∀ present s e t, t ∈ findMissing present s e ↔
      (min s e ≤ t ∧ t ≤ max s e ∧ t ∉ present))
    ∧ (∀ present s e, findMissing present s e = findMissing present e s)
    ∧ (∀ present s e, (findMissing present s e).Pairwise (· < ·))
    ∧ (∀ s e, findMissing [] s e = List.range' (min s e) (max s e + 1 - min s e))
    ∧ findMissing [100, 101, 102, 105, 106, 110] 100 110
        = [103, 104, 107, 108, 109] := by
  have hbody : ∀ present s e, findMissing present s e =
      (List.range' (min s e) (max s e + 1 - min s e)).filter
        (fun t => !(present.contains t)) := by
    intro present s e
    unfold findMissing
    rcases Nat.lt_or_ge e s with h | h
    · rw [if_pos h, Nat.min_eq_right (by omega), Nat.max_eq_left (by omega)]
    · rw [if_neg (by omega), Nat.min_eq_left (by omega), Nat.max_eq_right (by omega)]
  have hcont : ∀ (l : List Nat) (t : Nat), l.contains t = true ↔ t ∈ l :=
    fun _ _ => List.elem_iff
  refine ⟨?_, ?_, ?_, ?_, by decide⟩
  · intro present s e t
    rw [hbody]
    rw [List.mem_filter, List.mem_range'_1]
    constructor
    · rintro ⟨⟨h1, h2⟩, h3⟩
      refine ⟨h1, by omega, fun hin => ?_⟩
      rw [(hcont present t).mpr hin] at h3
      exact absurd h3 (by decide)
    · rintro ⟨h1, h2, h3⟩
      refine ⟨⟨h1, by omega⟩, ?_⟩
      cases hc : present.contains t with
      | false => rfl
      | true => exact absurd ((hcont present t).mp hc) h3
  · intro present s e
    rw [hbody, hbody, Nat.min_comm, Nat.max_comm]
  · intro present s e
    rw [hbody]
    exact (List.pairwise_lt_range' _ _ 1 (by omega)).filter _
  · intro s e
    rw [hbody]
    apply List.filter_eq_self.mpr
    intro a _
    rfl

/-! ### Range compression (C4) -/

theorem crAux_head : ∀ (xs : List Nat) (s p : Nat),
    ∃ b rest, crAux s p xs = (s, b) :: rest := by
  intro xs
  induction xs with
  | nil => exact fun s p => ⟨p, [], rfl⟩
  | cons x xs ih =>
    intro s p
    unfold crAux
    by_cases h : x ≠ p + 1
    · rw [if_pos h]
      obtain ⟨b, rest, -⟩ := ih x x
      exact ⟨p, crAux x x xs, rfl⟩
    · rw [if_neg h]
      exact ih s x

theorem expand_cons (r : Nat × Nat) (R : List (Nat × Nat)) :
    expand_hours (r :: R) =
      (if r.2 < r.1 then List.range' r.2 (r.1 + 1 - r.2)
       else List.range' r.1 (r.2 + 1 - r.1)) ++ expand_hours R := rfl

theorem expand_cons_le (a b : Nat) (R : List (Nat × Nat)) (hab : a ≤ b) :
    expand_hours ((a, b) :: R) = List.range' a (b + 1 - a) ++ expand_hours R := by
  rw [expand_cons]
  rw [if_neg (by omega : ¬ ((a, b).2 < (a, b).1))]

theorem expand_crAux : ∀ (xs : List Nat) (s p : Nat),
    List.Chain' (· < ·) (p :: xs) → s ≤ p →
    expand_hours (crAux s p xs) = List.range' s (p + 1 - s) ++ xs := by
  intro xs
  induction xs with
  | nil =>
    intro s p _ hsp
    unfold crAux
    rw [expand_cons_le s p [] hsp]
    simp [expand_hours]
  | cons x xs ih =>
    intro s p hchain hsp
    rw [List.chain'_cons] at hchain
    obtain ⟨hpx, hchain'⟩ := hchain
    unfold crAux
    by_cases h : x ≠ p + 1
    · rw [if_pos h, expand_cons_le s p _ hsp, ih x x hchain' (le_refl x)]
      rw [show x + 1 - x = 1 by omega, List.range'_one]
      simp
    · rw [if_neg h]
      have hx : x = p + 1 := by omega
      rw [ih s x hchain' (by omega)]
      have hcount : x + 1 - s = (p + 1 - s) + 1 := by omega
      rw [hcount, List.range'_1_concat]
      have hlast : s + (p + 1 - s) = x := by omega
      rw [hlast]
      simp

theorem canon_crAux : ∀ (xs : List Nat) (s p : Nat),
    List.Chain' (· < ·) (p :: xs) → s ≤ p →
    (∀ r ∈ crAux s p xs, r.1 ≤ r.2) ∧
    List.Chain' (fun r q => r.2 + 1 < q.1) (crAux s p xs) := by
  intro xs
  induction xs with
  | nil =>
    intro s p _ hsp
    unfold crAux
    refine ⟨?_, List.chain'_singleton _⟩
    intro r hr
    rw [List.mem_singleton] at hr
    subst hr
    exact hsp
  | cons x xs ih =>
    intro s p hchain hsp
    rw [List.chain'_cons] at hchain
    obtain ⟨hpx, hchain'⟩ := hchain
    unfold crAux
    by_cases h : x ≠ p + 1
    · rw [if_pos h]
      obtain ⟨hle, hch⟩ := ih x x hchain' (le_refl x)
      obtain ⟨b, rest, heq⟩ := crAux_head xs x x
      refine ⟨?_, ?_⟩
      · intro r hr
        rcases List.mem_cons.mp hr with hr | hr
        · subst hr; exact hsp
        · exact hle r hr
      · rw [heq] at hch ⊢
        rw [List.chain'_cons]
        exact ⟨by omega, hch⟩
    · rw [if_neg h]
      exact ih s x hchain' (by omega)

theorem crAux_skip : ∀ (k s p : Nat) (tail : List Nat),
    crAux s p (List.range' (p + 1) k ++ tail) = crAux s (p + k) tail := by
  intro k
  induction k with
  | zero => intro s p tail; simp
  | succ n ih =>
    intro s p tail
    rw [List.range'_succ]
    show crAux s p ((p + 1) :: (List.range' (p + 1 + 1) n ++ tail)) = _
    unfold crAux
    rw [if_neg (by omega)]
    rw [ih s (p + 1) tail]
    have harith : p + 1 + n = p + (n + 1) := by omega
    rw [harith]
    cases tail with
    | nil => rfl
    | cons x xs => rfl

theorem cr_expand : ∀ (R : List (Nat × Nat)),
    (∀ r ∈ R, r.1 ≤ r.2) → List.Chain' (fun r q => r.2 + 1 < q.1) R →
    contiguous_ranges (expand_hours R) = R := by
  intro R
  induction R with
  | nil => intro _ _; rfl
  | cons r R ih =>
    rcases r with ⟨a, b⟩
    intro hle hch
    have hab : a ≤ b := hle (a, b) (List.mem_cons_self _ _)
    rw [expand_cons_le a b R hab]
    have hsplit : b + 1 - a = (b - a) + 1 := by omega
    have hcr : ∀ (x : Nat) (xs : List Nat), contiguous_ranges (x :: xs) = crAux x x xs :=
      fun _ _ => rfl
    rw [hsplit, List.range'_succ]
    show contiguous_ranges (a :: (List.range' (a + 1) (b - a) ++ expand_hours R)) = _
    rw [hcr, crAux_skip (b - a) a a (expand_hours R)]
    have hb : a + (b - a) = b := by omega
    rw [hb]
    cases R with
    | nil =>
      show crAux a b [] = [(a, b)]
      rfl
    | cons q R' =>
      rcases q with ⟨c, d⟩
      have hcd : c ≤ d := hle (c, d) (by simp)
      have hbc : b + 1 < c := (List.chain'_cons.mp hch).1
      rw [expand_cons_le c d R' hcd]
      have hsplit2 : d + 1 - c = (d - c) + 1 := by omega
      rw [hsplit2, List.range'_succ]
      show crAux a b (c :: (List.range' (c + 1) (d - c) ++ expand_hours R')) = _
      unfold crAux
      rw [if_pos (by omega)]
      have hrest : crAux c c (List.range' (c + 1) (d - c) ++ expand_hours R')
          = contiguous_ranges (expand_hours ((c, d) :: R')) := by
        rw [expand_cons_le c d R' hcd, hsplit2, List.range'_succ]
        rfl
      rw [hrest]
      have hch' : List.Chain' (fun r q => r.2 + 1 < q.1) ((c, d) :: R') :=
        (List.chain'_cons.mp hch).2
      have hle' : ∀ r ∈ (c, d) :: R', r.1 ≤ r.2 := by
        intro r hr
        exact hle r (List.mem_cons_of_mem _ hr)
      rw [ih hle' hch']

/-- C4: on a strictly increasing list, `contiguous_ranges` yields the
unique decomposition into maximal runs of consecutive integers — expansion
reproduces the input, each range is well ordered, adjacent ranges are
separated by a gap, the empty and singleton cases are as specified, any
other canonical decomposition is equal to it, and expanding and
recompressing is stable. -/
theorem range_compression_spec (l : List Nat) (hl : List.Chain' (· < ·) l) :
    expand_hours (contiguous_ranges l) = l
    ∧ (∀ r ∈ contiguous_ranges l, r.1 ≤ r.2)
    ∧ List.Chain' (fun r q => r.2 + 1 < q.1) (contiguous_ranges l)
    ∧ contiguous_ranges ([] : List Nat) = []
    ∧ (∀ i : Nat, contiguous_ranges [i] = [(i, i)])
    ∧ (∀ R, (∀ r ∈ R, r.1 ≤ r.2) → List.Chain' (fun r q => r.2 + 1 < q.1) R →
        expand_hours R = l → R = contiguous_ranges l)
    ∧ contiguous_ranges (expand_hours (contiguous_ranges l)) = contiguous_ranges l := by
  have hexp : expand_hours (contiguous_ranges l) = l := by
    cases l with
    | nil => rfl
    | cons x xs =>
      show expand_hours (crAux x x xs) = x :: xs
      rw [expand_crAux xs x x hl (le_refl x)]
      rw [show x + 1 - x = 1 by omega, List.range'_one]
      simp
  have hcanon : (∀ r ∈ contiguous_ranges l, r.1 ≤ r.2) ∧
      List.Chain' (fun r q => r.2 + 1 < q.1) (contiguous_ranges l) := by
    cases l with
    | nil =>
      refine ⟨?_, List.chain'_nil⟩
      intro r hr
      cases hr
    | cons x xs => exact canon_crAux xs x x hl (le_refl x)
  refine ⟨hexp, hcanon.1, hcanon.2, rfl, fun i => rfl, ?_, ?_⟩
  · intro R hle hch hexpR
    rw [← hexpR]
    exact (cr_expand R hle hch).symm
  · rw [hexp]

/-! ### Failure isolation (C6) and stop-on-error policy (C7) -/

/-- The collection loop of the pool path contains no submission events. -/
theorem collect_no_submit (dryRun stopOnError : Bool) (rc : Nat → Nat) :
    ∀ (order : List Nat) (x : Nat),
      RunEvent.submitted x ∉ collectTrace dryRun stopOnError rc order := by
  intro order
  induction order with
  | nil => intro x h; cases h
  | cons d ds ih =>
    intro x h
    rcases List.mem_cons.mp h with h | h
    · cases h
    · by_cases hc : (!dryRun && stopOnError && !(effRc dryRun rc d == 0)) = true
      · rw [if_pos hc] at h; cases h
      · rw [if_neg hc] at h; exact ih x h

/-- In the sequential path, nothing is submitted after a failing completion
when stop-on-error is set. -/
theorem seq_no_submit_after_fail (dryRun : Bool) (rc : Nat → Nat) :
    ∀ (days : List Nat) (pre : List RunEvent) (d r : Nat) (post : List RunEvent),
      seqTrace dryRun true rc days = pre ++ RunEvent.completed d r :: post →
      r ≠ 0 → ∀ x, RunEvent.submitted x ∉ post := by
  intro days
  induction days with
  | nil =>
    intro pre d r post h _ x
    cases pre <;> simp [seqTrace] at h
  | cons d0 ds ih =>
    intro pre d r post h hr x hmem
    rw [show seqTrace dryRun true rc (d0 :: ds) =
      RunEvent.submitted d0 :: RunEvent.completed d0 (effRc dryRun rc d0) ::
        (if !dryRun && true && !(effRc dryRun rc d0 == 0) then []
         else seqTrace dryRun true rc ds) from rfl] at h
    cases pre with
    | nil =>
      rw [List.nil_append] at h
      cases h
    | cons a pre' =>
      rw [List.cons_append] at h
      injection h with ha h
      cases pre' with
      | nil =>
        rw [List.nil_append] at h
        injection h with hb h
        injection hb with hbd hbr
        subst hbd
        subst hbr
        by_cases hdry : dryRun = true
        · subst hdry
          exact hr rfl
        · have hdry' : dryRun = false := by
            cases dryRun
            · rfl
            · exact absurd rfl hdry
          subst hdry'
          have hrc : effRc false rc d0 ≠ 0 := hr
          have hcond : (!false && true && !(effRc false rc d0 == 0)) = true := by
            simp [hrc]
          rw [hcond] at h
          simp only [if_true] at h
          rw [← h] at hmem
          cases hmem
      | cons b pre'' =>
        rw [List.cons_append] at h
        injection h with hb h
        by_cases hc : (!dryRun && true && !(effRc dryRun rc d0 == 0)) = true
        · rw [if_pos hc] at h
          cases pre'' <;> simp at h
        · rw [if_neg hc] at h
          exact ih pre'' d r post h hr x hmem

/-- In the pool path, no submission event follows any completion event:
every future is submitted before the collection loop runs. -/
theorem pool_no_submit_after_complete (dryRun stopOnError : Bool) (rc : Nat → Nat) :
    ∀ (days order : List Nat) (pre : List RunEvent) (d r : Nat) (post : List RunEvent),
      poolTrace dryRun stopOnError rc days order =
        pre ++ RunEvent.completed d r :: post →
      ∀ x, RunEvent.submitted x ∉ post := by
  intro days
  induction days with
  | nil =>
    intro order pre d r post h x hmem
    have hsuffix : post <:+ collectTrace dryRun stopOnError rc order := by
      refine ⟨pre ++ [RunEvent.completed d r], ?_⟩
      unfold poolTrace at h
      rw [List.map_nil, List.nil_append] at h
      rw [h]
      simp
    exact collect_no_submit dryRun stopOnError rc order x (hsuffix.subset hmem)
  | cons d0 ds ih =>
    intro order pre d r post h x hmem
    unfold poolTrace at h
    rw [List.map_cons, List.cons_append] at h
    cases pre with
    | nil =>
      rw [List.nil_append] at h
      injection h with ha h
      cases ha
    | cons a pre' =>
      rw [List.cons_append] at h
      injection h with ha h
      exact ih order pre' d r post h x hmem

/-- Without stop-on-error, the sequential path submits and completes every
work item. -/
theorem seq_all_processed (dryRun : Bool) (rc : Nat → Nat) :
    ∀ (days : List Nat) (d : Nat), d ∈ days →
      RunEvent.submitted d ∈ seqTrace dryRun false rc days ∧
      RunEvent.completed d (effRc dryRun rc d) ∈ seqTrace dryRun false rc days := by
  intro days
  induction days with
  | nil => intro d h; cases h
  | cons d0 ds ih =>
    intro d hmem
    have hcond : (!dryRun && false && !(effRc dryRun rc d0 == 0)) = false := by
      simp
    rw [show seqTrace dryRun false rc (d0 :: ds) =
      RunEvent.submitted d0 :: RunEvent.completed d0 (effRc dryRun rc d0) ::
        (if !dryRun && false && !(effRc dryRun rc d0 == 0) then []
         else seqTrace dryRun false rc ds) from rfl, hcond]
    simp only [Bool.false_eq_true, if_false]
    rcases List.mem_cons.mp hmem with h | h
    · subst h
      exact ⟨by simp, by simp⟩
    · obtain ⟨h1, h2⟩ := ih d h
      exact ⟨by simp [h1], by simp [h2]⟩

/-- Without stop-on-error, the pool path submits every work item and the
collection loop completes every observed future. -/
theorem pool_all_processed (dryRun : Bool) (rc : Nat → Nat) :
    ∀ (days order : List Nat) (d : Nat), d ∈ days → d ∈ order →
      RunEvent.submitted d ∈ poolTrace dryRun false rc days order ∧
      RunEvent.completed d (effRc dryRun rc d) ∈ poolTrace dryRun false rc days order := by
  intro days order d hd ho
  unfold poolTrace
  constructor
  · exact List.mem_append_left _ (List.mem_map_of_mem _ hd)
  · apply List.mem_append_right
    clear hd
    induction order with
    | nil => cases ho
    | cons o0 os ih =>
      have hcond : (!dryRun && false && !(effRc dryRun rc o0 == 0)) = false := by
        simp
      rw [show collectTrace dryRun false rc (o0 :: os) =
        RunEvent.completed o0 (effRc dryRun rc o0) ::
          (if !dryRun && false && !(effRc dryRun rc o0 == 0) then []
           else collectTrace dryRun false rc os) from rfl, hcond]
      simp only [Bool.false_eq_true, if_false]
      rcases List.mem_cons.mp ho with h | h
      · subst h
        simp
      · simp [ih h]

/-- C7: under stop-on-error, once a work item is observed to fail the
executor never submits another item — in the sequential path the loop ends
before any further submission, and in the thread-pool path every submission
precedes every observed completion; under any other policy, every work item
is submitted and completed in both paths. -/
theorem executor_stop_policy :
    (∀ (dryRun : Bool) (rc : Nat → Nat) (days : List Nat)
        (pre : List RunEvent) (d r : Nat) (post : List RunEvent),
      seqTrace dryRun true rc days = pre ++ RunEvent.completed d r :: post →
      r ≠ 0 → ∀ x, RunEvent.submitted x ∉ post)
    ∧ (∀ (dryRun stopOnError : Bool) (rc : Nat → Nat) (days order : List Nat)
        (pre : List RunEvent) (d r : Nat) (post : List RunEvent),
      poolTrace dryRun stopOnError rc days order =
        pre ++ RunEvent.completed d r :: post →
      ∀ x, RunEvent.submitted x ∉ post)
    ∧ (∀ (dryRun : Bool) (rc : Nat → Nat) (days : List Nat) (d : Nat), d ∈ days →
      RunEvent.submitted d ∈ seqTrace dryRun false rc days ∧
      RunEvent.completed d (effRc dryRun rc d) ∈ seqTrace dryRun false rc days)
    ∧ (∀ (dryRun : Bool) (rc : Nat → Nat) (days order : List Nat) (d : Nat),
      d ∈ days → d ∈ order →
      RunEvent.submitted d ∈ poolTrace dryRun false rc days order ∧
      RunEvent.completed d (effRc dryRun rc d) ∈ poolTrace dryRun false rc days order) :=
  ⟨fun dry rc days pre d r post h hr => seq_no_submit_after_fail dry rc days pre d r post h hr,
   fun dry stop rc days order pre d r post h => pool_no_submit_after_complete dry stop rc days order pre d r post h,
   fun dry rc days d h => seq_all_processed dry rc days d h,
   fun dry rc days order d hd ho => pool_all_processed dry rc days order d hd ho⟩

theorem executor_stop_policy_witness :
    (∀ x, RunEvent.submitted x ∉ ([] : List RunEvent))
    ∧ RunEvent.submitted 2 ∈
        seqTrace false false (fun d => if d = 1 then 1 else 0) [1, 2] := by
  constructor
  · have h := executor_stop_policy.1 false (fun d => if d = 1 then 1 else 0) [1, 2]
      [RunEvent.submitted 1] 1 1
      [RunEvent.submitted 2, RunEvent.completed 2 0]
    intro x
    have h2 := executor_stop_policy.1 false (fun d => if d = 1 then 1 else 0) [1]
      [RunEvent.submitted 1] 1 1 [] (by decide) (by decide) x
    exact h2
  · exact (executor_stop_policy.2.2.1 false (fun d => if d = 1 then 1 else 0) [1, 2] 2
      (by decide)).1

/-- C6 counterexample: in run_missing_hours.py's `main` loop, a work item
whose monthly source is absent raises an uncaught `FileNotFoundError` that
ends the run: with the 1969-12 directory missing, the run over the items
1969-12-18 and 1970-01-05 records no processed items and stops with the
source-not-found error, even though the sibling item's source exists —
the sibling is not processed. -/
theorem per_item_isolation_counterexample :
    (mainLoopHours envMissingDec1969 [(1969, 12, 18), (1970, 1, 5)]).1 = []
    ∧ (mainLoopHours envMissingDec1969 [(1969, 12, 18), (1970, 1, 5)]).2
        = some RepairError.monthDirNotFound
    ∧ write_missing_for_date envMissingDec1969 1970 1 5 = Except.ok 24 :=
  ⟨rfl, rfl, rfl⟩

/-- C6 (amended): a work item with an absent source aborts
run_missing_hours.py's main loop — no sibling after it is processed; the
per-item isolation the claim describes holds in the subprocess-based
executor `run_for_days` of rebuild_missing_from_ranges.py, where without
stop-on-error every sibling item is still recorded with its own return
code. -/
theorem per_item_isolation_amended :
    (∀ (env : SourceEnv) (e : RepairError) (t : Nat × Nat × Nat)
        (rest : List (Nat × Nat × Nat)),
      write_missing_for_date env t.1 t.2.1 t.2.2 = Except.error e →
      mainLoopHours env (t :: rest) = ([], some e))
    ∧ (∀ (dryRun : Bool) (rc : Nat → Nat) (days : List Nat) (d : Nat), d ∈ days →
      (d, effRc dryRun rc d) ∈ seqResults dryRun false rc days) := by
  constructor
  · intro env e t rest herr
    show (match write_missing_for_date env t.1 t.2.1 t.2.2 with
      | Except.error e => ([], some e)
      | Except.ok w => ((t, w) :: (mainLoopHours env rest).1, (mainLoopHours env rest).2)) = ([], some e)
    rw [herr]
  · intro dryRun rc days
    induction days with
    | nil => intro d h; cases h
    | cons d0 ds ih =>
      intro d hmem
      have hcond : (!dryRun && false && !(effRc dryRun rc d0 == 0)) = false := by
        simp
      rw [show seqResults dryRun false rc (d0 :: ds) =
        (d0, effRc dryRun rc d0) ::
          (if !dryRun && false && !(effRc dryRun rc d0 == 0) then []
           else seqResults dryRun false rc ds) from rfl, hcond]
      simp only [Bool.false_eq_true, if_false]
      rcases List.mem_cons.mp hmem with h | h
      · subst h
        simp
      · simp [ih d h]

theorem per_item_isolation_amended_witness :
    mainLoopHours envMissingDec1969 [(1969, 12, 18), (1970, 1, 5)]
      = ([], some RepairError.monthDirNotFound)
    ∧ (2, 2) ∈ seqResults false false (fun d => d) [1, 2] :=
  ⟨per_item_isolation_amended.1 envMissingDec1969 RepairError.monthDirNotFound
      (1969, 12, 18) [(1970, 1, 5)] rfl,
   per_item_isolation_amended.2 false (fun d => d) [1, 2] 2 (by decide)⟩

/-! ### CSV iso-only dependence (C9) -/

theorem parseCsvGo_cons (d0 d1 : Option (Nat × Nat × Nat))
    (acc : List ((Nat × Nat × Nat) × List Nat)) (cnt : Nat) (row : CsvRow)
    (rest : List CsvRow) :
    parseCsvGo d0 d1 acc cnt (row :: rest) =
      (if (stripChars row.iso_utc).isEmpty then parseCsvGo d0 d1 acc cnt rest
       else
        match parseIsoStrptime (stripChars row.iso_utc) with
        | none => Except.error ()
        | some p =>
          if csvSkip d0 d1 (p.1.year, p.1.month, p.1.day) then
            parseCsvGo d0 d1 acc cnt rest
          else parseCsvGo d0 d1
            (addHour acc (p.1.year, p.1.month, p.1.day) p.1.hour) (cnt + 1) rest) := rfl

theorem parseCsvGo_iso_only :
    ∀ (rows1 rows2 : List CsvRow) (d0 d1 : Option (Nat × Nat × Nat))
      (acc : List ((Nat × Nat × Nat) × List Nat)) (cnt : Nat),
      rows1.map CsvRow.iso_utc = rows2.map CsvRow.iso_utc →
      parseCsvGo d0 d1 acc cnt rows1 = parseCsvGo d0 d1 acc cnt rows2 := by
  intro rows1
  induction rows1 with
  | nil =>
    intro rows2 d0 d1 acc cnt h
    cases rows2 with
    | nil => rfl
    | cons q qs => simp at h
  | cons r rs ih =>
    intro rows2 d0 d1 acc cnt h
    cases rows2 with
    | nil => simp at h
    | cons q qs =>
      simp only [List.map_cons, List.cons.injEq] at h
      obtain ⟨hiso, hrest⟩ := h
      rw [parseCsvGo_cons, parseCsvGo_cons, hiso]
      by_cases hemp : (stripChars q.iso_utc).isEmpty = true
      · rw [if_pos hemp, if_pos hemp]
        exact ih qs d0 d1 acc cnt hrest
      · rw [if_neg hemp, if_neg hemp]
        cases parseIsoStrptime (stripChars q.iso_utc) with
        | none => rfl
        | some p =>
          dsimp only
          by_cases hskip : csvSkip d0 d1 (p.1.year, p.1.month, p.1.day) = true
          · rw [if_pos hskip, if_pos hskip]
            exact ih qs d0 d1 acc cnt hrest
          · rw [if_neg hskip, if_neg hskip]
            exact ih qs d0 d1 _ _ hrest

/-- C9: the `hour_index` column of the ledger is dead on re-ingestion —
two CSV inputs agreeing row by row on `iso_utc` produce the identical
date-to-hours grouping and row count whatever their `hour_index` columns
hold, and a row with an empty (stripped) `iso_utc` is silently skipped. -/
theorem hour_index_column_dead :
    (∀ (rows1 rows2 : List CsvRow) (d0 d1 : Option (Nat × Nat × Nat)),
      rows1.map CsvRow.iso_utc = rows2.map CsvRow.iso_utc →
      parse_missing_csv rows1 d0 d1 = parse_missing_csv rows2 d0 d1)
    ∧ (∀ (hidx iso : List Char) (rows : List CsvRow)
        (d0 d1 : Option (Nat × Nat × Nat)),
      (stripChars iso).isEmpty = true →
      parse_missing_csv (⟨hidx, iso⟩ :: rows) d0 d1 = parse_missing_csv rows d0 d1) := by
  constructor
  · intro rows1 rows2 d0 d1 h
    exact parseCsvGo_iso_only rows1 rows2 d0 d1 [] 0 h
  · intro hidx iso rows d0 d1 hemp
    unfold parse_missing_csv
    rw [parseCsvGo_cons]
    exact if_pos hemp

theorem hour_index_column_dead_witness :
    parse_missing_csv
        [⟨['1'], ['1', '9', '6', '9', '-', '1', '2', '-', '1', '8', ' ',
                  '0', '0', ':', '0', '0', ':', '0', '0']⟩]
        none none
      = parse_missing_csv
        [⟨['9', '9', '9'], ['1', '9', '6', '9', '-', '1', '2', '-', '1', '8', ' ',
                            '0', '0', ':', '0', '0', ':', '0', '0']⟩]
        none none
    ∧ parse_missing_csv [⟨['7'], [' ']⟩] none none
        = parse_missing_csv [] none none :=
  ⟨hour_index_column_dead.1 _ _ none none rfl,
   hour_index_column_dead.2 ['7'] [' '] [] none none rfl⟩

/-! ### Full-day granularity of the month-grouped fast path (C10) -/

theorem mem_days_from_ranges (rs : List (DateTime × DateTime)) (D : Nat) :
    D ∈ days_from_ranges rs ↔
      ∃ r ∈ rs, epochDayDT r.1 ≤ D ∧ D ≤ epochDayDT r.2 := by
  unfold days_from_ranges
  rw [Finset.mem_sort, List.mem_toFinset, List.mem_flatten]
  constructor
  · rintro ⟨l, hl, hD⟩
    rw [List.mem_map] at hl
    obtain ⟨r, hr, rfl⟩ := hl
    rw [List.mem_range'_1] at hD
    exact ⟨r, hr, by omega, by omega⟩
  · rintro ⟨r, hr, h1, h2⟩
    refine ⟨List.range' (epochDayDT r.1) (epochDayDT r.2 + 1 - epochDayDT r.1),
      List.mem_map_of_mem _ hr, ?_⟩
    rw [List.mem_range'_1]
    omega

/-- C10: `days_from_ranges` yields exactly the sorted set of calendar
dates intersected by some range; `write_month`'s mask selects a source
timestamp exactly when its date is in that set, independently of its hour —
in particular every timestamp sharing the date of a range's boundary is
rewritten, even if the range covered only some of that date's hours. -/
theorem fast_path_day_granularity :
    (∀ (rs : List (DateTime × DateTime)) (D : Nat),
      D ∈ days_from_ranges rs ↔
        ∃ r ∈ rs, epochDayDT r.1 ≤ D ∧ D ≤ epochDayDT r.2)
    ∧ (∀ rs : List (DateTime × DateTime), (days_from_ranges rs).Pairwise (· < ·))
    ∧ (∀ (times : List DateTime) (days : List Nat) (t : DateTime),
      t ∈ times → epochDayDT t ∈ days → t ∈ writeMonthSelect times days)
    ∧ (∀ (times : List DateTime) (days : List Nat) (t : DateTime),
      t ∈ writeMonthSelect times days → epochDayDT t ∈ days)
    ∧ (∀ (rs : List (DateTime × DateTime)) (times : List DateTime)
        (t : DateTime) (r : DateTime × DateTime),
      r ∈ rs → epochDayDT r.1 ≤ epochDayDT r.2 → t ∈ times →
      epochDayDT t = epochDayDT r.1 →
      t ∈ writeMonthSelect times (days_from_ranges rs)) := by
  have hcont : ∀ (l : List Nat) (t : Nat), l.contains t = true ↔ t ∈ l :=
    fun _ _ => List.elem_iff
  have hsel : ∀ (times : List DateTime) (days : List Nat) (t : DateTime),
      t ∈ times → epochDayDT t ∈ days → t ∈ writeMonthSelect times days := by
    intro times days t ht hd
    unfold writeMonthSelect
    rw [List.mem_filter]
    exact ⟨ht, (hcont days (epochDayDT t)).mpr hd⟩
  refine ⟨mem_days_from_ranges, ?_, hsel, ?_, ?_⟩
  · intro rs
    exact Finset.sort_sorted_lt _
  · intro times days t hsel'
    unfold writeMonthSelect at hsel'
    rw [List.mem_filter] at hsel'
    exact (hcont days (epochDayDT t)).mp hsel'.2
  · intro rs times t r hr hord ht hdate
    apply hsel times _ t ht
    rw [mem_days_from_ranges]
    exact ⟨r, hr, by omega, by omega⟩

theorem fast_path_day_granularity_witness :
    (⟨1969, 12, 18, 0⟩ : DateTime) ∈
      writeMonthSelect [⟨1969, 12, 18, 0⟩, ⟨1969, 12, 19, 5⟩]
        (days_from_ranges [(⟨1969, 12, 18, 7⟩, ⟨1969, 12, 18, 9⟩)]) :=
  fast_path_day_granularity.2.2.2.2 [(⟨1969, 12, 18, 7⟩, ⟨1969, 12, 18, 9⟩)]
    [⟨1969, 12, 18, 0⟩, ⟨1969, 12, 19, 5⟩] ⟨1969, 12, 18, 0⟩
    (⟨1969, 12, 18, 7⟩, ⟨1969, 12, 18, 9⟩) (by simp) (le_refl _) (by simp) rfl

theorem range_compression_spec_witness :
    expand_hours (contiguous_ranges [103, 104, 107, 108, 109])
        = [103, 104, 107, 108, 109]
    ∧ contiguous_ranges (expand_hours (contiguous_ranges [103, 104, 107, 108, 109]))
        = contiguous_ranges [103, 104, 107, 108, 109] :=
  ⟨(range_compression_spec [103, 104, 107, 108, 109]
      (by norm_num [List.chain'_cons, List.chain'_singleton])).1,
   (range_compression_spec [103, 104, 107, 108, 109]
      (by norm_num [List.chain'_cons, List.chain'_singleton])).2.2.2.2.2.2⟩

/-! ### Decimal rendering lemmas (for the report line grammar, C5/C1) -/

theorem digitChar_isDigit (k : Nat) : (digitChar k).isDigit = true := by
  unfold digitChar
  split <;> decide

theorem digitChar_val (k : Nat) (h : k < 10) : (digitChar k).toNat - 48 = k := by
  interval_cases k <;> decide

theorem isDigit_toNat (c : Char) (h : c.isDigit = true) :
    48 ≤ c.toNat ∧ c.toNat ≤ 57 := by
  simp only [Char.isDigit, Bool.and_eq_true, decide_eq_true_eq] at h
  obtain ⟨h1, h2⟩ := h
  exact ⟨h1, h2⟩

theorem isDigit_not_ws (c : Char) (h : c.isDigit = true) : isWsChar c = false := by
  obtain ⟨h1, h2⟩ := isDigit_toNat c h
  unfold isWsChar
  have hne : ∀ d : Char, c.toNat ≠ d.toNat → (c == d) = false := by
    intro d hd
    rw [beq_eq_false_iff_ne]
    intro hcd
    exact hd (congrArg Char.toNat hcd)
  have hsp : (' ' : Char).toNat = 32 := rfl
  have htb : ('\t' : Char).toNat = 9 := rfl
  have hnl : ('\n' : Char).toNat = 10 := rfl
  have hcr : ('\r' : Char).toNat = 13 := rfl
  rw [hne ' ' (by omega), hne '\t' (by omega), hne '\n' (by omega),
    hne '\r' (by omega)]
  rfl

theorem isDigit_cls (c : Char) (h : c.isDigit = true) : isClsChar c = true := by
  unfold isClsChar
  rw [h]
  rfl

theorem natDigsFuel_digits : ∀ (fuel n : Nat), ∀ c ∈ natDigsFuel fuel n, c.isDigit = true := by
  intro fuel
  induction fuel with
  | zero =>
    intro n c hc
    rw [List.mem_singleton.mp hc]
    exact digitChar_isDigit _
  | succ f ih =>
    intro n c hc
    by_cases h : n < 10
    · rw [show natDigsFuel (f + 1) n = [digitChar n] by simp [natDigsFuel, h]] at hc
      rw [List.mem_singleton.mp hc]
      exact digitChar_isDigit _
    · rw [show natDigsFuel (f + 1) n = natDigsFuel f (n / 10) ++ [digitChar (n % 10)] by
        simp [natDigsFuel, h]] at hc
      rcases List.mem_append.mp hc with hc | hc
      · exact ih (n / 10) c hc
      · rw [List.mem_singleton.mp hc]
        exact digitChar_isDigit _

theorem natDigs_digits (n : Nat) : ∀ c ∈ natDigs n, c.isDigit = true :=
  natDigsFuel_digits n n

theorem natDigsFuel_ne_nil : ∀ (fuel n : Nat), natDigsFuel fuel n ≠ [] := by
  intro fuel
  cases fuel with
  | zero => intro n h; cases h
  | succ f =>
    intro n
    by_cases h : n < 10
    · rw [show natDigsFuel (f + 1) n = [digitChar n] by simp [natDigsFuel, h]]
      intro hc; cases hc
    · rw [show natDigsFuel (f + 1) n = natDigsFuel f (n / 10) ++ [digitChar (n % 10)] by
        simp [natDigsFuel, h]]
      simp

theorem digitsVal_snoc (ds : List Char) (c : Char) :
    digitsVal (ds ++ [c]) = digitsVal ds * 10 + (c.toNat - 48) := by
  unfold digitsVal
  rw [List.foldl_append]
  rfl

theorem digitsVal_natDigsFuel : ∀ (fuel n : Nat), n < 10 ^ (fuel + 1) →
    digitsVal (natDigsFuel fuel n) = n := by
  intro fuel
  induction fuel with
  | zero =>
    intro n h
    have h10 : n < 10 := by
      have : (10 : Nat) ^ 1 = 10 := by norm_num
      omega
    show digitsVal [digitChar (n % 10)] = n
    unfold digitsVal
    show 0 * 10 + ((digitChar (n % 10)).toNat - 48) = n
    rw [Nat.mod_eq_of_lt h10, digitChar_val n h10]
    omega
  | succ f ih =>
    intro n h
    by_cases h10 : n < 10
    · rw [show natDigsFuel (f + 1) n = [digitChar n] by simp [natDigsFuel, h10]]
      unfold digitsVal
      show 0 * 10 + ((digitChar n).toNat - 48) = n
      rw [digitChar_val n h10]
      omega
    · rw [show natDigsFuel (f + 1) n = natDigsFuel f (n / 10) ++ [digitChar (n % 10)] by
        simp [natDigsFuel, h10]]
      rw [digitsVal_snoc]
      have hdiv : n / 10 < 10 ^ (f + 1) := by
        rw [Nat.div_lt_iff_lt_mul (by omega : 0 < 10)]
        calc n < 10 ^ (f + 1 + 1) := h
        _ = 10 ^ (f + 1) * 10 := by rw [Nat.pow_succ]
      rw [ih (n / 10) hdiv, digitChar_val (n % 10) (Nat.mod_lt _ (by omega))]
      omega

theorem digitsVal_natDigs (n : Nat) : digitsVal (natDigs n) = n := by
  apply digitsVal_natDigsFuel
  calc n < 2 ^ n := Nat.lt_two_pow n
  _ ≤ 10 ^ n := Nat.pow_le_pow_left (by omega) n
  _ ≤ 10 ^ (n + 1) := Nat.pow_le_pow_right (by omega) (by omega)

theorem natDigsFuel_length_le : ∀ (fuel n k : Nat), 1 ≤ k → n < 10 ^ k →
    (natDigsFuel fuel n).length ≤ k := by
  intro fuel
  induction fuel with
  | zero => intro n k hk _; simpa using hk
  | succ f ih =>
    intro n k hk h
    by_cases h10 : n < 10
    · rw [show natDigsFuel (f + 1) n = [digitChar n] by simp [natDigsFuel, h10]]
      simpa using hk
    · rw [show natDigsFuel (f + 1) n = natDigsFuel f (n / 10) ++ [digitChar (n % 10)] by
        simp [natDigsFuel, h10]]
      rw [List.length_append, List.length_singleton]
      have hk2 : 2 ≤ k := by
        by_contra hlt
        have hk1 : k = 1 := by omega
        subst hk1
        simp at h
        omega
      have hdiv : n / 10 < 10 ^ (k - 1) := by
        rw [Nat.div_lt_iff_lt_mul (by omega : 0 < 10)]
        have : 10 ^ (k - 1) * 10 = 10 ^ k := by
          rw [← Nat.pow_succ]
          congr 1
          omega
        omega
      have := ih (n / 10) (k - 1) (by omega) hdiv
      omega

theorem natDigsFuel_length_eq : ∀ (k fuel n : Nat), k ≤ fuel →
    10 ^ k ≤ n → n < 10 ^ (k + 1) → (natDigsFuel fuel n).length = k + 1 := by
  intro k
  induction k with
  | zero =>
    intro fuel n _ _ h2
    have h10 : n < 10 := by simpa using h2
    cases fuel with
    | zero => rfl
    | succ f => simp [natDigsFuel, h10]
  | succ j ih =>
    intro fuel n hfuel h1 h2
    cases fuel with
    | zero => omega
    | succ f =>
      have h10 : ¬ n < 10 := by
        have : (10 : Nat) ^ 1 ≤ 10 ^ (j + 1) := Nat.pow_le_pow_right (by omega) (by omega)
        have h1' : 10 ≤ n := by
          have : (10 : Nat) ^ 1 = 10 := by norm_num
          omega
        omega
      rw [show natDigsFuel (f + 1) n = natDigsFuel f (n / 10) ++ [digitChar (n % 10)] by
        simp [natDigsFuel, h10]]
      rw [List.length_append, List.length_singleton]
      have hlo : 10 ^ j ≤ n / 10 := by
        rw [Nat.le_div_iff_mul_le (by omega : 0 < 10)]
        have : 10 ^ j * 10 = 10 ^ (j + 1) := by rw [← Nat.pow_succ]
        omega
      have hhi : n / 10 < 10 ^ (j + 1) := by
        rw [Nat.div_lt_iff_lt_mul (by omega : 0 < 10)]
        have : 10 ^ (j + 1) * 10 = 10 ^ (j + 2) := by rw [← Nat.pow_succ]
        omega
      rw [ih f (n / 10) (by omega) hlo hhi]

theorem natDigs_length4 (n : Nat) (h1 : 1000 ≤ n) (h2 : n ≤ 9999) :
    (natDigs n).length = 4 := by
  have h3 : (10 : Nat) ^ 3 ≤ n := by norm_num; omega
  have h4 : n < 10 ^ 4 := by norm_num; omega
  exact natDigsFuel_length_eq 3 n n (by omega) h3 h4

theorem natDigs_length_le2 (n : Nat) (h : n < 100) : (natDigs n).length ≤ 2 :=
  natDigsFuel_length_le n n 2 (by omega) (by norm_num; omega)

/-! ### Zero padding lemmas -/

theorem padTo_digits (w : Nat) (ds : List Char) (h : ∀ c ∈ ds, c.isDigit = true) :
    ∀ c ∈ padTo w ds, c.isDigit = true := by
  intro c hc
  unfold padTo at hc
  rcases List.mem_append.mp hc with hc | hc
  · rw [List.eq_of_mem_replicate hc]
    decide
  · exact h c hc

theorem padTo_length (w : Nat) (ds : List Char) (h : ds.length ≤ w) :
    (padTo w ds).length = w := by
  unfold padTo
  rw [List.length_append, List.length_replicate]
  omega

theorem padTo_of_length (w : Nat) (ds : List Char) (h : ds.length = w) :
    padTo w ds = ds := by
  unfold padTo
  rw [h, Nat.sub_self, List.replicate_zero, List.nil_append]

theorem foldl_val_replicate_zero : ∀ k : Nat,
    (List.replicate k '0').foldl (fun a c => a * 10 + (c.toNat - 48)) 0 = 0 := by
  intro k
  induction k with
  | zero => rfl
  | succ j ih =>
    rw [List.replicate_succ]
    show (List.replicate j '0').foldl (fun a c => a * 10 + (c.toNat - 48))
      (0 * 10 + (('0' : Char).toNat - 48)) = 0
    have h0 : 0 * 10 + (('0' : Char).toNat - 48) = 0 := by decide
    rw [h0]
    exact ih

theorem digitsVal_padTo (w : Nat) (ds : List Char) :
    digitsVal (padTo w ds) = digitsVal ds := by
  unfold padTo digitsVal
  rw [List.foldl_append, foldl_val_replicate_zero]

/-! ### Scanner primitive lemmas -/

theorem takeWhile_append_all {p : Char → Bool} : ∀ (ds rest : List Char),
    (∀ c ∈ ds, p c = true) → (∀ c cs, rest = c :: cs → p c = false) →
    (ds ++ rest).takeWhile p = ds ∧ (ds ++ rest).dropWhile p = rest := by
  intro ds
  induction ds with
  | nil =>
    intro rest _ h2
    cases rest with
    | nil => exact ⟨rfl, rfl⟩
    | cons c cs =>
      rw [List.nil_append]
      rw [List.takeWhile_cons, List.dropWhile_cons, h2 c cs rfl]
      exact ⟨rfl, rfl⟩
  | cons d ds ih =>
    intro rest h1 h2
    have hd : p d = true := h1 d (List.mem_cons_self _ _)
    rw [List.cons_append, List.takeWhile_cons, List.dropWhile_cons, hd]
    obtain ⟨ht, hdr⟩ := ih rest (fun c hc => h1 c (List.mem_cons_of_mem _ hc)) h2
    simp only [if_true]
    rw [ht, hdr]
    exact ⟨rfl, rfl⟩

theorem dropWhile_not_head {p : Char → Bool} (l : List Char)
    (h : ∀ c cs, l = c :: cs → p c = false) : l.dropWhile p = l := by
  cases l with
  | nil => rfl
  | cons c cs =>
    rw [List.dropWhile_cons, h c cs rfl]
    rfl

theorem takeNum_append (ds rest : List Char) (hds : ∀ c ∈ ds, c.isDigit = true)
    (hne : ds ≠ []) (hrest : ∀ c cs, rest = c :: cs → c.isDigit = false) :
    takeNum (ds ++ rest) = some (digitsVal ds, rest) := by
  obtain ⟨ht, hd⟩ := takeWhile_append_all ds rest hds hrest
  unfold takeNum
  rw [ht, hd]
  rw [if_neg (by simpa [List.isEmpty_iff] using hne)]

theorem takeCls_append (ds rest : List Char) (hds : ∀ c ∈ ds, isClsChar c = true)
    (hne : ds ≠ []) (hrest : ∀ c cs, rest = c :: cs → isClsChar c = false) :
    takeCls (ds ++ rest) = some rest := by
  obtain ⟨ht, hd⟩ := takeWhile_append_all ds rest hds hrest
  unfold takeCls
  rw [ht, hd]
  rw [if_neg (by simpa [List.isEmpty_iff] using hne)]

theorem takeVarDigits_append (maxLen : Nat) (ds rest : List Char)
    (hds : ∀ c ∈ ds, c.isDigit = true) (hne : ds ≠ []) (hlen : ds.length ≤ maxLen)
    (hrest : ∀ c cs, rest = c :: cs → c.isDigit = false) :
    takeVarDigits maxLen (ds ++ rest) = some (digitsVal ds, rest) := by
  obtain ⟨ht, hd⟩ := takeWhile_append_all ds rest hds hrest
  unfold takeVarDigits
  rw [ht, hd]
  rw [if_neg ?_]
  push_neg
  exact ⟨by simpa [List.isEmpty_iff] using hne, by omega⟩

theorem expectLit_pre : ∀ (lit rest : List Char), expectLit lit (lit ++ rest) = some rest := by
  intro lit
  induction lit with
  | nil => intro rest; rfl
  | cons c cs ih =>
    intro rest
    rw [List.cons_append]
    show (if c = c then expectLit cs (cs ++ rest) else none) = some rest
    rw [if_pos rfl, ih rest]

theorem expectLit_one (c : Char) (rest : List Char) :
    expectLit [c] (c :: rest) = some rest :=
  expectLit_pre [c] rest

theorem expectLit_dotdot (rest : List Char) :
    expectLit ['.', '.'] ('.' :: '.' :: rest) = some rest :=
  expectLit_pre ['.', '.'] rest

theorem expectLit_hours (rest : List Char) :
    expectLit ['h', 'o', 'u', 'r', 's'] ('h' :: 'o' :: 'u' :: 'r' :: 's' :: rest)
      = some rest :=
  expectLit_pre ['h', 'o', 'u', 'r', 's'] rest

theorem expectWs_cons (rest : List Char)
    (hrest : ∀ c cs, rest = c :: cs → isWsChar c = false) :
    expectWs (' ' :: rest) = some rest := by
  show (if isWsChar ' ' then some (rest.dropWhile isWsChar) else none) = some rest
  rw [if_pos (by decide), dropWhile_not_head rest hrest]

theorem dropWs_append (ws rest : List Char) (hws : ∀ c ∈ ws, isWsChar c = true)
    (hrest : ∀ c cs, rest = c :: cs → isWsChar c = false) :
    (ws ++ rest).dropWhile isWsChar = rest :=
  (takeWhile_append_all ws rest hws hrest).2

theorem takeFixedGo_append : ∀ (ds : List Char) (acc : Nat) (rest : List Char),
    (∀ c ∈ ds, c.isDigit = true) →
    takeFixedGo ds.length acc (ds ++ rest) =
      some (ds.foldl (fun a c => a * 10 + (c.toNat - 48)) acc, rest) := by
  intro ds
  induction ds with
  | nil => intro acc rest _; rfl
  | cons c cs ih =>
    intro acc rest h
    have hc : c.isDigit = true := h c (List.mem_cons_self _ _)
    rw [List.length_cons, List.cons_append]
    show (if c.isDigit then takeFixedGo cs.length (acc * 10 + (c.toNat - 48)) (cs ++ rest)
      else none) = _
    rw [if_pos hc, ih _ rest (fun x hx => h x (List.mem_cons_of_mem _ hx))]
    rfl

theorem takeFixedGo_pad (w : Nat) (ds rest : List Char)
    (hds : ∀ c ∈ ds, c.isDigit = true) (hlen : ds.length = w) :
    takeFixedGo w 0 (ds ++ rest) = some (digitsVal ds, rest) := by
  subst hlen
  exact takeFixedGo_append ds 0 rest hds

theorem takeFixedGo_zeros (rest : List Char) :
    takeFixedGo 2 0 ('0' :: '0' :: rest) = some (0, rest) := rfl

/-! ### Rendered timestamp structure -/

theorem map_T_digits (ds : List Char) (h : ∀ c ∈ ds, c.isDigit = true) :
    ds.map (fun c => if c = ' ' then 'T' else c) = ds := by
  induction ds with
  | nil => rfl
  | cons c cs ih =>
    rw [List.map_cons, ih (fun x hx => h x (List.mem_cons_of_mem _ hx))]
    have hc : c.isDigit = true := h c (List.mem_cons_self _ _)
    have hcne : ¬ c = ' ' := by
      intro hcsp
      subst hcsp
      cases hc
    rw [if_neg hcne]

/-- The rendered timestamp with its four-digit year field unpadded. -/
theorem isoChars_eq (t : DateTime) (hy1 : 1000 ≤ t.year) (hy2 : t.year ≤ 9999) :
    isoChars t = natDigs t.year ++ '-' :: (padTo 2 (natDigs t.month) ++
      '-' :: (padTo 2 (natDigs t.day) ++ ' ' :: (padTo 2 (natDigs t.hour) ++
      [':', '0', '0', ':', '0', '0']))) := by
  unfold isoChars
  rw [padTo_of_length 4 _ (natDigs_length4 _ hy1 hy2)]
  simp only [List.cons_append, List.append_assoc]

/-- Replacing spaces by `T` in the rendered timestamp. -/
theorem isoT_eq (t : DateTime) (hy1 : 1000 ≤ t.year) (hy2 : t.year ≤ 9999) :
    (isoChars t).map (fun c => if c = ' ' then 'T' else c)
      = natDigs t.year ++ '-' :: (padTo 2 (natDigs t.month) ++
        '-' :: (padTo 2 (natDigs t.day) ++ 'T' :: (padTo 2 (natDigs t.hour) ++
        [':', '0', '0', ':', '0', '0']))) := by
  rw [isoChars_eq t hy1 hy2]
  have hY := map_T_digits (natDigs t.year) (natDigs_digits _)
  have hM := map_T_digits (padTo 2 (natDigs t.month))
    (padTo_digits 2 _ (natDigs_digits _))
  have hD := map_T_digits (padTo 2 (natDigs t.day))
    (padTo_digits 2 _ (natDigs_digits _))
  have hH := map_T_digits (padTo 2 (natDigs t.hour))
    (padTo_digits 2 _ (natDigs_digits _))
  have htail : List.map (fun c => if c = ' ' then 'T' else c)
      [':', '0', '0', ':', '0', '0'] = [':', '0', '0', ':', '0', '0'] := rfl
  have hdash : (if ('-' : Char) = ' ' then 'T' else '-') = '-' := rfl
  have hsp : (if (' ' : Char) = ' ' then 'T' else ' ') = 'T' := rfl
  simp only [List.map_append, List.map_cons, hY, hM, hD, hH, htail, hdash, hsp,
    if_true]

/-- C1's decoder output parsed back by the `numpy.datetime64` model. -/
theorem parseIsoNp_iso (t : DateTime) (hv : ValidDT t)
    (hy1 : 1000 ≤ t.year) (hy2 : t.year ≤ 9999) :
    parseIsoNp ((isoChars t).map (fun c => if c = ' ' then 'T' else c))
      = some (t, 0, 0) := by
  obtain ⟨h1, h2, h3, h4, h5⟩ := hv
  have hdm := daysInMonthL_le (isLeap t.year) t.month
  have hd100 : t.day < 100 := by
    unfold daysInMonth at h4
    omega
  have hmlen := natDigs_length_le2 t.month (by omega)
  have hdlen := natDigs_length_le2 t.day (by omega)
  have hhlen := natDigs_length_le2 t.hour (by omega)
  rw [isoT_eq t hy1 hy2]
  unfold parseIsoNp
  rw [takeFixedGo_pad 4 (natDigs t.year) _ (natDigs_digits _)
    (natDigs_length4 _ hy1 hy2)]
  simp only [Option.bind_eq_bind, Option.some_bind]
  rw [expectLit_one '-' _]
  simp only [Option.some_bind]
  rw [takeFixedGo_pad 2 (padTo 2 (natDigs t.month)) _
    (padTo_digits 2 _ (natDigs_digits _)) (padTo_length 2 _ hmlen)]
  simp only [Option.some_bind]
  rw [expectLit_one '-' _]
  simp only [Option.some_bind]
  rw [takeFixedGo_pad 2 (padTo 2 (natDigs t.day)) _
    (padTo_digits 2 _ (natDigs_digits _)) (padTo_length 2 _ hdlen)]
  simp only [Option.some_bind]
  rw [expectLit_one 'T' _]
  simp only [Option.some_bind]
  rw [takeFixedGo_pad 2 (padTo 2 (natDigs t.hour)) _
    (padTo_digits 2 _ (natDigs_digits _)) (padTo_length 2 _ hhlen)]
  simp only [Option.some_bind]
  rw [expectLit_one ':' _]
  simp only [Option.some_bind]
  rw [takeFixedGo_zeros]
  simp only [Option.some_bind]
  rw [expectLit_one ':' _]
  simp only [Option.some_bind]
  rw [show takeFixedGo 2 0 ['0', '0'] = some (0, []) from rfl]
  simp only [Option.some_bind]
  rw [digitsVal_padTo, digitsVal_padTo, digitsVal_padTo,
    digitsVal_natDigs, digitsVal_natDigs, digitsVal_natDigs, digitsVal_natDigs]
  have hcond : ([] : List Char).isEmpty = true ∧
      ValidDT ⟨t.year, t.month, t.day, t.hour⟩ ∧ (0 : Nat) < 60 ∧ (0 : Nat) < 60 :=
    ⟨rfl, ⟨h1, h2, h3, h4, h5⟩, by omega, by omega⟩
  rw [if_pos hcond]

/-! ### Stripping the rendered timestamp is the identity -/

theorem isoChars_head_not_ws (t : DateTime) (hy1 : 1000 ≤ t.year)
    (hy2 : t.year ≤ 9999) :
    ∀ c cs, isoChars t = c :: cs → isWsChar c = false := by
  intro c cs h
  rw [isoChars_eq t hy1 hy2] at h
  cases hnd : natDigs t.year with
  | nil => exact absurd hnd (natDigsFuel_ne_nil _ _)
  | cons c0 cs0 =>
    rw [hnd, List.cons_append] at h
    injection h with hc _
    subst hc
    exact isDigit_not_ws c0
      (natDigs_digits t.year c0 (by rw [hnd]; exact List.mem_cons_self _ _))

theorem getLast?_cons_of_ne_nil (c : Char) (l : List Char) (h : l ≠ []) :
    (c :: l).getLast? = l.getLast? := by
  cases l with
  | nil => exact absurd rfl h
  | cons d ds => rw [List.getLast?_cons_cons]

theorem isoChars_getLast (t : DateTime) (hy1 : 1000 ≤ t.year)
    (hy2 : t.year ≤ 9999) : (isoChars t).getLast? = some '0' := by
  rw [isoChars_eq t hy1 hy2]
  rw [List.getLast?_append_of_ne_nil _ (by simp)]
  rw [getLast?_cons_of_ne_nil _ _ (by simp)]
  rw [List.getLast?_append_of_ne_nil _ (by simp)]
  rw [getLast?_cons_of_ne_nil _ _ (by simp)]
  rw [List.getLast?_append_of_ne_nil _ (by simp)]
  rw [getLast?_cons_of_ne_nil _ _ (by simp)]
  rw [List.getLast?_append_of_ne_nil _ (by simp)]
  rfl

theorem strip_of_head_getLast (s : List Char) (c0 : Char) (h0 : isWsChar c0 = false)
    (hlast : s.getLast? = some c0)
    (hhead : ∀ c cs, s = c :: cs → isWsChar c = false) :
    stripChars s = s := by
  unfold stripChars
  rw [dropWhile_not_head s hhead]
  have hrevh : s.reverse.head? = some c0 := by
    rw [List.head?_reverse]
    exact hlast
  cases hrev : s.reverse with
  | nil =>
    rw [hrev] at hrevh
    cases hrevh
  | cons c cs =>
    rw [hrev] at hrevh
    have hc : c = c0 := by injection hrevh
    subst hc
    rw [List.dropWhile_cons, h0]
    rw [if_neg (by simp)]
    rw [← hrev, List.reverse_reverse]

theorem stripChars_isoChars (t : DateTime) (hy1 : 1000 ≤ t.year)
    (hy2 : t.year ≤ 9999) : stripChars (isoChars t) = isoChars t :=
  strip_of_head_getLast (isoChars t) '0' (by decide)
    (isoChars_getLast t hy1 hy2) (isoChars_head_not_ws t hy1 hy2)

theorem isoChars_length (t : DateTime) (hy1 : 1000 ≤ t.year) (hy2 : t.year ≤ 9999)
    (hm : t.month < 100) (hd : t.day < 100) (hh : t.hour < 100) :
    (isoChars t).length = 19 := by
  rw [isoChars_eq t hy1 hy2]
  simp only [List.length_append, List.length_cons]
  rw [natDigs_length4 _ hy1 hy2,
    padTo_length 2 _ (natDigs_length_le2 _ hm),
    padTo_length 2 _ (natDigs_length_le2 _ hd),
    padTo_length 2 _ (natDigs_length_le2 _ hh)]
  rfl

/-- C1, second direction, at string level: `hour_index_from_iso` inverts
`iso_from_hour_index` on the supported window. -/
theorem hour_index_from_iso_roundtrip (i : Nat) (hlo : TIME_START ≤ i)
    (hhi : i ≤ TIME_END) : hour_index_from_iso (iso_from_hour_index i) = some i := by
  obtain ⟨hv, hy1940⟩ := iso_from_hour_index_dt_valid i
  have hyle := iso_from_hour_index_dt_year_le i hhi
  obtain ⟨h1, h2, h3, h4, h5⟩ := hv
  have hy1 : 1000 ≤ (iso_from_hour_index_dt i).year := by omega
  have hy2 : (iso_from_hour_index_dt i).year ≤ 9999 := by omega
  have hdm := daysInMonthL_le (isLeap (iso_from_hour_index_dt i).year)
    (iso_from_hour_index_dt i).month
  have hd100 : (iso_from_hour_index_dt i).day < 100 := by
    unfold daysInMonth at h4
    omega
  have hlen : (stripChars (isoChars (iso_from_hour_index_dt i))).length = 19 := by
    rw [stripChars_isoChars _ hy1 hy2]
    exact isoChars_length _ hy1 hy2 (by omega) hd100 (by omega)
  have hdef : iso_from_hour_index i = isoChars (iso_from_hour_index_dt i) := rfl
  rw [hdef]
  unfold hour_index_from_iso
  rw [if_neg (by omega)]
  show Option.map (fun p => hour_index_from_iso_dt p.1)
    (parseIsoNp ((isoChars (iso_from_hour_index_dt i)).map
      (fun c => if c = ' ' then 'T' else c))) = some i
  rw [parseIsoNp_iso (iso_from_hour_index_dt i) ⟨h1, h2, h3, h4, h5⟩ hy1 hy2]
  rw [Option.map_some']
  rw [codec_decode_encode i hlo]

/-- C1: the time codec is a bijection on the supported window — decoding
the index of any valid in-window calendar timestamp renders exactly that
timestamp (`y-m-d h:00:00`), and re-encoding the rendering of any in-window
hour index returns the index. -/
theorem time_codec_roundtrip :
    (∀ t : DateTime, ValidDT t → 1940 ≤ t.year →
      iso_from_hour_index (calculate_abs_hour_index t.year t.month t.day t.hour)
        = isoChars t)
    ∧ (∀ i : Nat, TIME_START ≤ i → i ≤ TIME_END →
      hour_index_from_iso (iso_from_hour_index i) = some i) := by
  constructor
  · intro t hv hy
    unfold iso_from_hour_index
    rw [codec_encode_decode t hv hy]
  · exact hour_index_from_iso_roundtrip

theorem time_codec_roundtrip_witness :
    iso_from_hour_index (calculate_abs_hour_index 1944 2 29 23)
        = isoChars ⟨1944, 2, 29, 23⟩
    ∧ iso_from_hour_index (calculate_abs_hour_index 1940 12 31 23)
        = isoChars ⟨1940, 12, 31, 23⟩
    ∧ hour_index_from_iso (iso_from_hour_index TIME_START) = some TIME_START :=
  ⟨time_codec_roundtrip.1 ⟨1944, 2, 29, 23⟩ (by decide) (by decide),
   time_codec_roundtrip.1 ⟨1940, 12, 31, 23⟩ (by decide) (by decide),
   time_codec_roundtrip.2 TIME_START (le_refl _) (by decide)⟩

/-! ### The report line grammar round trip (C5) -/

/-- Every character of a rendered timestamp lies in the `[0-9:\-\s]` class of
the rebuild tool's `RANGE_RE`. -/
theorem isoChars_cls (t : DateTime) (hy1 : 1000 ≤ t.year) (hy2 : t.year ≤ 9999) :
    ∀ c ∈ isoChars t, isClsChar c = true := by
  intro c hc
  rw [isoChars_eq t hy1 hy2] at hc
  simp only [List.mem_append, List.mem_cons, List.not_mem_nil, or_false] at hc
  rcases hc with h | rfl | h | rfl | h | rfl | h | rfl | rfl | rfl | rfl | rfl | rfl
  · exact isDigit_cls c (natDigs_digits t.year c h)
  · decide
  · exact isDigit_cls c (padTo_digits 2 _ (natDigs_digits _) c h)
  · decide
  · exact isDigit_cls c (padTo_digits 2 _ (natDigs_digits _) c h)
  · decide
  · exact isDigit_cls c (padTo_digits 2 _ (natDigs_digits _) c h)
  all_goals decide

theorem isoChars_ne_nil (t : DateTime) : isoChars t ≠ [] := by
  unfold isoChars padTo
  simp

theorem head_append_digit_not_ws (ds rest : List Char)
    (hds : ∀ c ∈ ds, c.isDigit = true) (hne : ds ≠ []) :
    ∀ c cs, ds ++ rest = c :: cs → isWsChar c = false := by
  intro c cs h
  cases ds with
  | nil => exact absurd rfl hne
  | cons d ds2 =>
    rw [List.cons_append] at h
    injection h with h1 _
    subst h1
    exact isDigit_not_ws d (hds d (List.mem_cons_self _ _))

theorem head_append_of_head (l rest : List Char)
    (hl : ∀ c cs, l = c :: cs → isWsChar c = false) (hne : l ≠ []) :
    ∀ c cs, l ++ rest = c :: cs → isWsChar c = false := by
  intro c cs h
  cases l with
  | nil => exact absurd rfl hne
  | cons d ds =>
    rw [List.cons_append] at h
    injection h with h1 _
    subst h1
    exact hl d ds rfl

theorem dropWs_cons_sp (s : List Char) :
    (' ' :: s).dropWhile isWsChar = s.dropWhile isWsChar := by
  rw [List.dropWhile_cons, show isWsChar ' ' = true from rfl, if_pos rfl]

theorem dropWhile_ws_lit_sp (c : Char) (hc : isWsChar c = false) (rest : List Char) :
    (c :: rest).dropWhile isWsChar = c :: rest := by
  rw [List.dropWhile_cons, hc, if_neg Bool.false_ne_true]

theorem dropWhile_ws_digits_sp (ds rest : List Char)
    (hds : ∀ c ∈ ds, c.isDigit = true) (hne : ds ≠ []) :
    (ds ++ rest).dropWhile isWsChar = ds ++ rest :=
  dropWhile_not_head _ (head_append_digit_not_ws ds rest hds hne)

theorem takeNum_digits_sp (ds : List Char) (hds : ∀ c ∈ ds, c.isDigit = true)
    (hne : ds ≠ []) (rest : List Char) :
    takeNum (ds ++ ' ' :: rest) = some (digitsVal ds, ' ' :: rest) :=
  takeNum_append ds (' ' :: rest) hds hne (by
    intro c cs h
    injection h with h1 _
    subst h1
    decide)

theorem padTo_two_ne_nil (ds : List Char) (h : ds.length ≤ 2) : padTo 2 ds ≠ [] := by
  have hl := padTo_length 2 ds h
  intro hnil
  rw [hnil] at hl
  exact absurd hl (by decide)

/-- The greedy class run starting at `  <iso> ` stops exactly at the `..`
separator. -/
theorem takeCls_iso_sp (A rest : List Char) (hA : ∀ c ∈ A, isClsChar c = true) :
    takeCls (' ' :: ' ' :: (A ++ (' ' :: '.' :: '.' :: ' ' :: rest)))
      = some ('.' :: '.' :: ' ' :: rest) := by
  have hsplit : ' ' :: ' ' :: (A ++ (' ' :: '.' :: '.' :: ' ' :: rest))
      = (' ' :: ' ' :: (A ++ [' '])) ++ ('.' :: '.' :: ' ' :: rest) := by
    simp only [List.cons_append, List.append_assoc, List.nil_append]
  rw [hsplit]
  refine takeCls_append _ _ ?_ (List.cons_ne_nil _ _) ?_
  · intro c hc
    simp only [List.mem_cons, List.mem_append, List.not_mem_nil, or_false] at hc
    rcases hc with rfl | rfl | hc | rfl
    · decide
    · decide
    · exact hA c hc
    · decide
  · intro c cs h
    injection h with h1 _
    subst h1
    decide

/-- The greedy class run starting at ` <iso>  ` stops exactly at the `(`
of the hour count. -/
theorem takeCls_iso_sp2 (B rest : List Char) (hB : ∀ c ∈ B, isClsChar c = true) :
    takeCls (' ' :: (B ++ (' ' :: ' ' :: '(' :: rest))) = some ('(' :: rest) := by
  have hsplit : ' ' :: (B ++ (' ' :: ' ' :: '(' :: rest))
      = (' ' :: (B ++ [' ', ' '])) ++ ('(' :: rest) := by
    simp only [List.cons_append, List.append_assoc, List.nil_append]
  rw [hsplit]
  refine takeCls_append _ _ ?_ (List.cons_ne_nil _ _) ?_
  · intro c hc
    simp only [List.mem_cons, List.mem_append, List.not_mem_nil, or_false] at hc
    rcases hc with rfl | hc | rfl | rfl
    · decide
    · exact hB c hc
    · decide
    · decide
  · intro c cs h
    injection h with h1 _
    subst h1
    decide

/-- The rebuild tool's scanner on an audit report line built from abstract
digit runs and class runs. -/
theorem matchRebuild_build (na nb nn A B : List Char)
    (hna : ∀ c ∈ na, c.isDigit = true) (hnane : na ≠ [])
    (hnb : ∀ c ∈ nb, c.isDigit = true) (hnbne : nb ≠ [])
    (hnn : ∀ c ∈ nn, c.isDigit = true) (hnnne : nn ≠ [])
    (hA : ∀ c ∈ A, isClsChar c = true) (hB : ∀ c ∈ B, isClsChar c = true) :
    matchRebuild (' ' :: ' ' :: (na ++ (' ' :: '.' :: '.' :: ' ' ::
      (nb ++ (' ' :: ' ' :: '|' :: ' ' :: ' ' ::
      (A ++ (' ' :: '.' :: '.' :: ' ' ::
      (B ++ (' ' :: ' ' :: '(' ::
      (nn ++ (' ' :: 'h' :: 'o' :: 'u' :: 'r' :: 's' :: [')'])))))))))))
      = some (digitsVal na, digitsVal nb) := by
  unfold matchRebuild
  rw [dropWs_cons_sp, dropWs_cons_sp, dropWhile_ws_digits_sp na _ hna hnane]
  rw [takeNum_digits_sp na hna hnane _]
  simp only [Option.bind_eq_bind, Option.some_bind]
  rw [dropWs_cons_sp, dropWhile_ws_lit_sp '.' (by decide) _]
  rw [expectLit_dotdot]
  simp only [Option.bind_eq_bind, Option.some_bind]
  rw [dropWs_cons_sp, dropWhile_ws_digits_sp nb _ hnb hnbne]
  rw [takeNum_digits_sp nb hnb hnbne _]
  simp only [Option.bind_eq_bind, Option.some_bind]
  rw [dropWs_cons_sp, dropWs_cons_sp, dropWhile_ws_lit_sp '|' (by decide) _]
  rw [expectLit_one '|']
  simp only [Option.bind_eq_bind, Option.some_bind]
  rw [takeCls_iso_sp A _ hA]
  simp only [Option.bind_eq_bind, Option.some_bind]
  rw [expectLit_dotdot]
  simp only [Option.bind_eq_bind, Option.some_bind]
  rw [takeCls_iso_sp2 B _ hB]
  simp only [Option.bind_eq_bind, Option.some_bind]
  rw [expectLit_one '(']
  simp only [Option.bind_eq_bind, Option.some_bind]
  rw [takeNum_digits_sp nn hnn hnnne _]
  simp only [Option.bind_eq_bind, Option.some_bind]
  rw [dropWs_cons_sp, dropWhile_ws_lit_sp 'h' (by decide) _]
  rw [expectLit_hours]
  simp only [Option.bind_eq_bind, Option.some_bind]
  rw [expectLit_one ')']
  simp only [Option.bind_eq_bind, Option.some_bind]
  rfl

/-- The rebuild tool's `RANGE_RE` matches every printed report line and its
`parse_ranges` recovers the printed index pair. -/
theorem matchRebuild_rangeLine (a b : Nat) (ha : a ≤ TIME_END) (hb : b ≤ TIME_END) :
    matchRebuild (rangeLine a b) = some (a, b) := by
  obtain ⟨hva, hy40a⟩ := iso_from_hour_index_dt_valid a
  obtain ⟨hvb, hy40b⟩ := iso_from_hour_index_dt_valid b
  have hua := iso_from_hour_index_dt_year_le a ha
  have hub := iso_from_hour_index_dt_year_le b hb
  have h := matchRebuild_build (natDigs a) (natDigs b) (natDigs (b - a + 1))
    (isoChars (iso_from_hour_index_dt a)) (isoChars (iso_from_hour_index_dt b))
    (natDigs_digits a) (natDigsFuel_ne_nil _ _)
    (natDigs_digits b) (natDigsFuel_ne_nil _ _)
    (natDigs_digits _) (natDigsFuel_ne_nil _ _)
    (isoChars_cls (iso_from_hour_index_dt a) (by omega) (by omega))
    (isoChars_cls (iso_from_hour_index_dt b) (by omega) (by omega))
  rw [digitsVal_natDigs, digitsVal_natDigs] at h
  exact h

/-- The fast tool's fixed-width timestamp parser on a rendered timestamp
followed by arbitrary trailing input. -/
theorem parseFastDT_iso (t : DateTime) (hv : ValidDT t)
    (hy1 : 1000 ≤ t.year) (hy2 : t.year ≤ 9999) (rest : List Char) :
    parseFastDT (isoChars t ++ rest) = some ((t, 0, 0), rest) := by
  obtain ⟨h1, h2, h3, h4, h5⟩ := hv
  have hdm := daysInMonthL_le (isLeap t.year) t.month
  have hd100 : t.day < 100 := by
    unfold daysInMonth at h4
    omega
  have hmlen := natDigs_length_le2 t.month (by omega)
  have hdlen := natDigs_length_le2 t.day (by omega)
  have hhlen := natDigs_length_le2 t.hour (by omega)
  rw [isoChars_eq t hy1 hy2]
  simp only [List.append_assoc, List.cons_append, List.nil_append]
  unfold parseFastDT
  rw [takeFixedGo_pad 4 (natDigs t.year) _ (natDigs_digits _)
    (natDigs_length4 _ hy1 hy2)]
  simp only [Option.bind_eq_bind, Option.some_bind]
  rw [expectLit_one '-']
  simp only [Option.bind_eq_bind, Option.some_bind]
  rw [takeFixedGo_pad 2 (padTo 2 (natDigs t.month)) _
    (padTo_digits 2 _ (natDigs_digits _)) (padTo_length 2 _ hmlen)]
  simp only [Option.bind_eq_bind, Option.some_bind]
  rw [expectLit_one '-']
  simp only [Option.bind_eq_bind, Option.some_bind]
  rw [takeFixedGo_pad 2 (padTo 2 (natDigs t.day)) _
    (padTo_digits 2 _ (natDigs_digits _)) (padTo_length 2 _ hdlen)]
  simp only [Option.bind_eq_bind, Option.some_bind]
  rw [expectWs_cons _ (head_append_digit_not_ws (padTo 2 (natDigs t.hour)) _
    (padTo_digits 2 _ (natDigs_digits _)) (padTo_two_ne_nil _ hhlen))]
  simp only [Option.bind_eq_bind, Option.some_bind]
  rw [takeFixedGo_pad 2 (padTo 2 (natDigs t.hour)) _
    (padTo_digits 2 _ (natDigs_digits _)) (padTo_length 2 _ hhlen)]
  simp only [Option.bind_eq_bind, Option.some_bind]
  rw [expectLit_one ':']
  simp only [Option.bind_eq_bind, Option.some_bind]
  rw [takeFixedGo_zeros]
  simp only [Option.bind_eq_bind, Option.some_bind]
  rw [expectLit_one ':']
  simp only [Option.bind_eq_bind, Option.some_bind]
  rw [takeFixedGo_zeros]
  simp only [Option.bind_eq_bind, Option.some_bind]
  rw [digitsVal_padTo, digitsVal_padTo, digitsVal_padTo,
    digitsVal_natDigs, digitsVal_natDigs, digitsVal_natDigs, digitsVal_natDigs]
  have hcond : ValidDT ⟨t.year, t.month, t.day, t.hour⟩ ∧ 1 ≤ t.year ∧
      (0 : Nat) < 60 ∧ (0 : Nat) < 60 :=
    ⟨⟨h1, h2, h3, h4, h5⟩, by omega, by omega, by omega⟩
  rw [if_pos hcond]

/-! ### Chronological order of decoded timestamps (for the fast tool's swap) -/

theorem daysFrom1940_succ (y : Nat) (hy : 1940 ≤ y) :
    daysFrom1940 (y + 1) = daysFrom1940 y + daysInYear y := by
  have h1 : y + 1 - 1940 = (y - 1940) + 1 := by omega
  have h2 := sumDays_add 1940 (y - 1940) 1
  have h3 : 1940 + (y - 1940) = y := by omega
  rw [h3] at h2
  have h4 : sumDays y 1 = daysInYear y := by
    have h5 : sumDays y 1 = daysInYear y + sumDays (y + 1) 0 := rfl
    have hz : sumDays (y + 1) 0 = 0 := rfl
    omega
  unfold daysFrom1940
  rw [h1, h2, h4]

theorem daysFrom1940_mono {y1 y2 : Nat} (h : y1 ≤ y2) :
    daysFrom1940 y1 ≤ daysFrom1940 y2 := by
  unfold daysFrom1940
  exact sumDays_mono 1940 (by omega)

/-- Month prefix sums grow by at least a full month across months (bundled
hypothesis for decidability). -/
theorem daysBeforeMonthL_mono (leap : Bool) :
    ∀ m1 < 13, ∀ m2 < 13, 1 ≤ m1 ∧ m1 < m2 →
      daysBeforeMonthL leap m1 + daysInMonthL leap m1 ≤ daysBeforeMonthL leap m2 := by
  cases leap <;> decide

/-- Lexicographically earlier valid timestamps have strictly smaller hour
counts: the `datetime` comparison agrees with the hour index. -/
theorem epochHours_lt_of_lex (t1 t2 : DateTime) (hv1 : ValidDT t1) (hv2 : ValidDT t2)
    (hy1 : 1940 ≤ t1.year) (_hy2 : 1940 ≤ t2.year)
    (hlex : t1.year < t2.year ∨ t1.year = t2.year ∧
      (t1.month < t2.month ∨ t1.month = t2.month ∧
        (t1.day < t2.day ∨ t1.day = t2.day ∧ t1.hour < t2.hour))) :
    epochHours t1 < epochHours t2 := by
  obtain ⟨a1, a2, a3, a4, a5⟩ := hv1
  obtain ⟨b1, b2, b3, b4, b5⟩ := hv2
  have hdm1 := daysInMonthL_le (isLeap t1.year) t1.month
  have hdm2 := daysInMonthL_le (isLeap t2.year) t2.month
  have a4' : t1.day ≤ daysInMonthL (isLeap t1.year) t1.month := a4
  have b4' : t2.day ≤ daysInMonthL (isLeap t2.year) t2.month := b4
  rcases hlex with hY | ⟨hYe, hM | ⟨hMe, hD | ⟨hDe, hH⟩⟩⟩
  · have hd1 := daysBeforeMonthL_lt (isLeap t1.year) t1.month (by omega) t1.day
      (by omega) ⟨a1, a3, a4'⟩
    have hsucc := daysFrom1940_succ t1.year hy1
    have hmono := daysFrom1940_mono (show t1.year + 1 ≤ t2.year by omega)
    have hdy : daysInYear t1.year = daysInYearL (isLeap t1.year) := rfl
    show toEpochDay t1.year t1.month t1.day * 24 + t1.hour
      < toEpochDay t2.year t2.month t2.day * 24 + t2.hour
    unfold toEpochDay daysBeforeMonth
    omega
  · have hmm := daysBeforeMonthL_mono (isLeap t1.year) t1.month (by omega) t2.month
      (by omega) ⟨a1, hM⟩
    show toEpochDay t1.year t1.month t1.day * 24 + t1.hour
      < toEpochDay t2.year t2.month t2.day * 24 + t2.hour
    unfold toEpochDay daysBeforeMonth
    rw [← hYe]
    omega
  · show toEpochDay t1.year t1.month t1.day * 24 + t1.hour
      < toEpochDay t2.year t2.month t2.day * 24 + t2.hour
    unfold toEpochDay daysBeforeMonth
    rw [← hYe, ← hMe]
    omega
  · show toEpochDay t1.year t1.month t1.day * 24 + t1.hour
      < toEpochDay t2.year t2.month t2.day * 24 + t2.hour
    unfold toEpochDay daysBeforeMonth
    rw [← hYe, ← hMe, ← hDe]
    omega

/-- On an ordered pair of in-window indices the fast tool's `datetime`
comparison never reports the decoded timestamps as reversed, so its swap is
not taken. -/
theorem dtLt_decode_false (a b : Nat) (ha : TIME_START ≤ a) (hab : a ≤ b) :
    dtLt (iso_from_hour_index_dt b, 0, 0) (iso_from_hour_index_dt a, 0, 0) = false := by
  obtain ⟨hvb, hyb⟩ := iso_from_hour_index_dt_valid b
  obtain ⟨hva, hya⟩ := iso_from_hour_index_dt_valid a
  have hea : 1940 * 365 * 24 + epochHours (iso_from_hour_index_dt a) + 1 = a :=
    codec_decode_encode a ha
  have heb : 1940 * 365 * 24 + epochHours (iso_from_hour_index_dt b) + 1 = b :=
    codec_decode_encode b (by omega)
  unfold dtLt
  refine decide_eq_false ?_
  intro hP
  rcases hP with h | ⟨hYe, h | ⟨hMe, h | ⟨hDe, h | ⟨hHe, h | ⟨hMie, h⟩⟩⟩⟩⟩
  · have hlt := epochHours_lt_of_lex _ _ hvb hva hyb hya (Or.inl h)
    omega
  · have hlt := epochHours_lt_of_lex _ _ hvb hva hyb hya (Or.inr ⟨hYe, Or.inl h⟩)
    omega
  · have hlt := epochHours_lt_of_lex _ _ hvb hva hyb hya
      (Or.inr ⟨hYe, Or.inr ⟨hMe, Or.inl h⟩⟩)
    omega
  · have hlt := epochHours_lt_of_lex _ _ hvb hva hyb hya
      (Or.inr ⟨hYe, Or.inr ⟨hMe, Or.inr ⟨hDe, h⟩⟩⟩)
    omega
  · have h0 : (0 : Nat) < 0 := h
    omega
  · have h0 : (0 : Nat) < 0 := h
    omega

/-- The fast tool's scanner on an audit report line built from abstract
digit runs and two rendered timestamps that its `datetime` comparison does
not report as reversed. -/
theorem matchFast_build (na nb nn : List Char) (t1 t2 : DateTime)
    (hna : ∀ c ∈ na, c.isDigit = true) (hnane : na ≠ [])
    (hnb : ∀ c ∈ nb, c.isDigit = true) (hnbne : nb ≠ [])
    (hnn : ∀ c ∈ nn, c.isDigit = true) (hnnne : nn ≠ [])
    (hv1 : ValidDT t1) (hy11 : 1000 ≤ t1.year) (hy12 : t1.year ≤ 9999)
    (hv2 : ValidDT t2) (hy21 : 1000 ≤ t2.year) (hy22 : t2.year ≤ 9999)
    (hlt : dtLt (t2, 0, 0) (t1, 0, 0) = false) :
    matchFast (' ' :: ' ' :: (na ++ (' ' :: '.' :: '.' :: ' ' ::
      (nb ++ (' ' :: ' ' :: '|' :: ' ' :: ' ' ::
      (isoChars t1 ++ (' ' :: '.' :: '.' :: ' ' ::
      (isoChars t2 ++ (' ' :: ' ' :: '(' ::
      (nn ++ (' ' :: 'h' :: 'o' :: 'u' :: 'r' :: 's' :: [')'])))))))))))
      = some ((t1, 0, 0), (t2, 0, 0)) := by
  unfold matchFast
  rw [dropWs_cons_sp, dropWs_cons_sp, dropWhile_ws_digits_sp na _ hna hnane]
  rw [takeNum_digits_sp na hna hnane _]
  simp only [Option.bind_eq_bind, Option.some_bind]
  rw [dropWs_cons_sp, dropWhile_ws_lit_sp '.' (by decide) _]
  rw [expectLit_dotdot]
  simp only [Option.bind_eq_bind, Option.some_bind]
  rw [dropWs_cons_sp, dropWhile_ws_digits_sp nb _ hnb hnbne]
  rw [takeNum_digits_sp nb hnb hnbne _]
  simp only [Option.bind_eq_bind, Option.some_bind]
  rw [dropWs_cons_sp, dropWs_cons_sp, dropWhile_ws_lit_sp '|' (by decide) _]
  rw [expectLit_one '|']
  simp only [Option.bind_eq_bind, Option.some_bind]
  rw [dropWs_cons_sp, dropWs_cons_sp,
    dropWhile_not_head _ (head_append_of_head _ _
      (isoChars_head_not_ws t1 hy11 hy12) (isoChars_ne_nil _))]
  rw [parseFastDT_iso t1 hv1 hy11 hy12 _]
  simp only [Option.bind_eq_bind, Option.some_bind]
  rw [dropWs_cons_sp, dropWhile_ws_lit_sp '.' (by decide) _]
  rw [expectLit_dotdot]
  simp only [Option.bind_eq_bind, Option.some_bind]
  rw [dropWs_cons_sp,
    dropWhile_not_head _ (head_append_of_head _ _
      (isoChars_head_not_ws t2 hy21 hy22) (isoChars_ne_nil _))]
  rw [parseFastDT_iso t2 hv2 hy21 hy22 _]
  simp only [Option.bind_eq_bind, Option.some_bind]
  rw [dropWs_cons_sp, dropWs_cons_sp, dropWhile_ws_lit_sp '(' (by decide) _]
  rw [expectLit_one '(']
  simp only [Option.bind_eq_bind, Option.some_bind]
  rw [takeNum_digits_sp nn hnn hnnne _]
  simp only [Option.bind_eq_bind, Option.some_bind]
  rw [dropWs_cons_sp, dropWhile_ws_lit_sp 'h' (by decide) _]
  rw [expectLit_hours]
  simp only [Option.bind_eq_bind, Option.some_bind]
  rw [expectLit_one ')']
  simp only [Option.bind_eq_bind, Option.some_bind]
  rw [show (List.dropWhile isWsChar ([] : List Char)).isEmpty = true from rfl,
    if_pos rfl]
  rw [hlt, if_neg Bool.false_ne_true]

/-- The fast tool's `RANGE_RE` matches every printed report line and its
`parse_ranges` yields the two decoded timestamps in printed order. -/
theorem matchFast_rangeLine (a b : Nat) (ha : TIME_START ≤ a) (hab : a ≤ b)
    (hb : b ≤ TIME_END) :
    matchFast (rangeLine a b)
      = some ((iso_from_hour_index_dt a, 0, 0), (iso_from_hour_index_dt b, 0, 0)) := by
  obtain ⟨hva, hy40a⟩ := iso_from_hour_index_dt_valid a
  obtain ⟨hvb, hy40b⟩ := iso_from_hour_index_dt_valid b
  have hua := iso_from_hour_index_dt_year_le a (by omega)
  have hub := iso_from_hour_index_dt_year_le b hb
  have h := matchFast_build (natDigs a) (natDigs b) (natDigs (b - a + 1))
    (iso_from_hour_index_dt a) (iso_from_hour_index_dt b)
    (natDigs_digits a) (natDigsFuel_ne_nil _ _)
    (natDigs_digits b) (natDigsFuel_ne_nil _ _)
    (natDigs_digits _) (natDigsFuel_ne_nil _ _)
    hva (by omega) (by omega) hvb (by omega) (by omega)
    (dtLt_decode_false a b ha hab)
  exact h

/-- C5: report round trip — every range line the audit tool prints for an
in-window range `a ≤ b` (format `  a .. b  |  iso_a .. iso_b  (N hours)`) is
matched by both repair tools' line grammars, and parsing recovers exactly
the printed pair: the rebuild tool's `parse_ranges` yields `(a, b)` itself,
and the fast tool's `parse_ranges` yields the two decoded timestamps in
printed order (its reversed-bounds swap is not taken), which re-encode to
`a` and `b`. -/
theorem report_line_roundtrip (a b : Nat) (ha : TIME_START ≤ a) (hab : a ≤ b)
    (hb : b ≤ TIME_END) :
    parse_ranges_rebuild [rangeLine a b] = [(a, b)] ∧
    parse_ranges_fast [rangeLine a b]
      = [((iso_from_hour_index_dt a, 0, 0), (iso_from_hour_index_dt b, 0, 0))] ∧
    hour_index_from_iso_dt (iso_from_hour_index_dt a) = a ∧
    hour_index_from_iso_dt (iso_from_hour_index_dt b) = b := by
  refine ⟨?_, ?_, codec_decode_encode a ha, codec_decode_encode b (by omega)⟩
  · unfold parse_ranges_rebuild
    rw [List.filterMap_cons, matchRebuild_rangeLine a b (by omega) hb]
    rfl
  · unfold parse_ranges_fast
    rw [List.filterMap_cons, matchFast_rangeLine a b ha hab hb]
    rfl

theorem report_line_roundtrip_witness :
    parse_ranges_rebuild [rangeLine TIME_START (TIME_START + 25)]
        = [(TIME_START, TIME_START + 25)] ∧
    parse_ranges_fast [rangeLine TIME_START (TIME_START + 25)]
        = [((iso_from_hour_index_dt TIME_START, 0, 0),
            (iso_from_hour_index_dt (TIME_START + 25), 0, 0))] ∧
    hour_index_from_iso_dt (iso_from_hour_index_dt TIME_START) = TIME_START ∧
    hour_index_from_iso_dt (iso_from_hour_index_dt (TIME_START + 25))
        = TIME_START + 25 :=
  report_line_roundtrip TIME_START (TIME_START + 25) (le_refl _) (by omega)
    (by decide)

end NcarPipeline
